import Mathlib

/-!
Verification development for the asyncio-redis client library.

We shallowly embed the core of the library:
* `MultiBuffer` (lib/util.js): the chunk queue with `add`, `shift`, `indexOf`.
* `RESPParser` (lib/parser.js): the tokenizer `_processReadBuffers`/`_write`,
  the rendezvous pair `_getNextToken`/`_pushToken`, and the reply assembler
  `getResponse`.
* `RedisClient` (lib/client.js): the wire encoder `_write_to_socket`, the
  pump `_run_command_queue` and the submission helper `_serialize_command`.

Bytes are modelled as `List Nat` (each element < 256 on real wires);
JavaScript strings are modelled as lists of Unicode code points, also
`List Nat`.  JavaScript numbers appearing as parse results are modelled as
`Option Int` with `none` playing the role of `NaN`.
-/

/-- Code points of a Lean string literal (used for JS string constants). -/
def strCp (s : String) : List Nat := s.data.map Char.toNat

/-- The two-byte CRLF sequence searched for by the tokenizer. -/
def crlf : List Nat := [13, 10]

/-- Is the code point an ASCII decimal digit? -/
def isDigitCp (c : Nat) : Bool := 48 ≤ c && c ≤ 57

/-- Little-endian ASCII digits of `n`, with explicit fuel (fuel `n` suffices
for `n ≥ 1`).  Structural on the fuel so that it evaluates by `decide`. -/
def natDigitsAux : Nat → Nat → List Nat
  | 0, _ => []
  | _ + 1, 0 => []
  | f + 1, n + 1 => ((n + 1) % 10 + 48) :: natDigitsAux f ((n + 1) / 10)

/-- ASCII decimal representation of a natural number, as JS renders it. -/
def natDigits (n : Nat) : List Nat :=
  if n = 0 then [48] else (natDigitsAux n n).reverse

/-- ASCII decimal representation of an integer, as JS template interpolation
`${n}` renders an integral number. -/
def intDigits (n : Int) : List Nat :=
  if n < 0 then 45 :: natDigits (-n).toNat else natDigits n.toNat

/-- Value of a list of ASCII digit code points, most significant first. -/
def digitsVal (ds : List Nat) : Nat :=
  ds.foldl (fun a c => a * 10 + (c - 48)) 0

/-- ECMAScript `parseInt(s, 10)` after the leading-whitespace skip: an
optional sign followed by a longest digit prefix; `none` models `NaN`.
Trailing non-digit characters are ignored, as in JS. -/
def parseDigits (s : List Nat) : Option Nat :=
  match s.takeWhile isDigitCp with
  | [] => none
  | ds => some (digitsVal ds)

/-- ASCII whitespace skipped by `parseInt` (the call sites in this code base
never pass leading whitespace, so the restriction to ASCII whitespace is
immaterial). -/
def isJsSpace (c : Nat) : Bool := c = 9 || c = 10 || c = 11 || c = 12 || c = 13 || c = 32

/-- ECMAScript `parseInt(s, 10)` on a list of code points; `none` is `NaN`. -/
def jsParseInt (s : List Nat) : Option Int :=
  let s1 := s.dropWhile isJsSpace
  if s1.head? = some 45 then (parseDigits s1.tail).map (fun n => -(n : Int))
  else if s1.head? = some 43 then (parseDigits s1.tail).map (fun n => (n : Int))
  else (parseDigits s1).map (fun n => (n : Int))

/-- UTF-8 decoder state: continuation bytes still needed, accumulated code
point, and the valid range for the next continuation byte. -/
structure U8State where
  need : Nat
  cp : Nat
  lo : Nat
  hi : Nat
  deriving DecidableEq, Repr

/-- Classify a lead byte, WHATWG style: returns the emitted code point for a
one-byte sequence, or the started multi-byte state, or an error. -/
def u8Lead (b : Nat) : Sum Nat U8State :=
  if b < 128 then .inl b
  else if b < 194 then .inl 65533
  else if b ≤ 223 then .inr ⟨1, b - 192, 128, 191⟩
  else if b ≤ 239 then
    .inr ⟨2, b - 224, (if b = 224 then 160 else 128), (if b = 237 then 159 else 191)⟩
  else if b ≤ 244 then
    .inr ⟨3, b - 240, (if b = 240 then 144 else 128), (if b = 244 then 143 else 191)⟩
  else .inl 65533

/-- One step of the WHATWG UTF-8 decoder with replacement: process byte `b`
in state `st` (`none` = between sequences), returning emitted code points and
the new state.  On an invalid continuation byte the byte is reprocessed as a
lead byte (maximal-subpart policy, as Node's `buffer.toString` does). -/
def u8Step (st : Option U8State) (b : Nat) : List Nat × Option U8State :=
  match st with
  | none =>
    match u8Lead b with
    | .inl cp => ([cp], none)
    | .inr s => ([], some s)
  | some s =>
    if s.lo ≤ b && b ≤ s.hi then
      let cp := s.cp * 64 + (b - 128)
      if s.need = 1 then ([cp], none)
      else ([], some ⟨s.need - 1, cp, 128, 191⟩)
    else
      match u8Lead b with
      | .inl cp => ([65533, cp], none)
      | .inr s2 => ([65533], some s2)

/-- Run the decoder over a byte list from state `st`; a dangling incomplete
sequence at the end emits one replacement character. -/
def u8Run (st : Option U8State) : List Nat → List Nat
  | [] => match st with
    | none => []
    | some _ => [65533]
  | b :: rest =>
    let (out, st2) := u8Step st b
    out ++ u8Run st2 rest

/-- `Buffer.prototype.toString('utf-8')`: bytes to code points, lossy. -/
def utf8Lossy (bytes : List Nat) : List Nat := u8Run none bytes

/-- UTF-8 encoding of one code point, as Node encodes JS strings (unpaired
surrogates and out-of-range values become the replacement character's
bytes). -/
def utf8EncodeChar (c : Nat) : List Nat :=
  if c < 128 then [c]
  else if c < 2048 then [192 + c / 64, 128 + c % 64]
  else if 55296 ≤ c && c ≤ 57343 then [239, 191, 189]
  else if c < 65536 then [224 + c / 4096, 128 + (c / 64) % 64, 128 + c % 64]
  else if c < 1114112 then
    [240 + c / 262144, 128 + (c / 4096) % 64, 128 + (c / 64) % 64, 128 + c % 64]
  else [239, 191, 189]

/-- UTF-8 encoding of a JS string (list of code points), as `socket.write`
and `Buffer.byteLength` use it. -/
def utf8Encode (s : List Nat) : List Nat := s.flatMap utf8EncodeChar

/-! ### MultiBuffer (lib/util.js) -/

/-- The chunk queue: an ordered list of byte buffers.  The JS object caches
the total length; here `length` is computed, which agrees with the cached
value by the class invariant. -/
structure MultiBuffer where
  buffers : List (List Nat)
  deriving DecidableEq, Repr

/-- Total number of buffered bytes (`get length`). -/
def MultiBuffer.length (mb : MultiBuffer) : Nat :=
  (mb.buffers.map List.length).sum

/-- `add(buffer)`: push a buffer at the end. -/
def MultiBuffer.add (mb : MultiBuffer) (buffer : List Nat) : MultiBuffer :=
  ⟨mb.buffers ++ [buffer]⟩

/-- The while-loop of `MultiBuffer.shift`: collect `n` bytes off the front of
the buffer list, splitting the buffer in which byte `n` falls; returns the
collected bytes (already concatenated, as `Buffer.concat` would) and the
remaining buffer list. -/
def shiftLoop : Nat → List (List Nat) → List Nat × List (List Nat)
  | 0, bufs => ([], bufs)
  | _ + 1, [] => ([], [])
  | n + 1, buf :: rest =>
    if buf.length > n + 1 then
      (buf.take (n + 1), buf.drop (n + 1) :: rest)
    else
      let r := shiftLoop (n + 1 - buf.length) rest
      (buf ++ r.1, r.2)

/-- `shift(numBytes)`: detach the first `numBytes` bytes; `none` models the
`Can't shift bytes, not enough.` exception when `numBytes > length`. -/
def MultiBuffer.shift (mb : MultiBuffer) (numBytes : Nat) :
    Option (List Nat × MultiBuffer) :=
  if numBytes > mb.length then none
  else
    let r := shiftLoop numBytes mb.buffers
    some (r.1, ⟨r.2⟩)

/-- Does `needle` occur at the head of the list? (`Buffer.indexOf` prefix
test at one position.) -/
def startsWith : List Nat → List Nat → Bool
  | [], _ => true
  | _ :: _, [] => false
  | a :: as, b :: bs => a = b && startsWith as bs

/-- First index at which `needle` occurs inside a single buffer
(`buf.indexOf(needle)` restricted to one buffer), `none` if absent. -/
def bufSearch (needle : List Nat) : List Nat → Option Nat
  | [] => if startsWith needle [] then some 0 else none
  | b :: bs =>
    if startsWith needle (b :: bs) then some 0
    else (bufSearch needle bs).map (· + 1)

/-- The per-buffer scan of `MultiBuffer.indexOf`: each buffer is searched in
isolation (this is the source's behaviour: a needle straddling a chunk
boundary is never found). -/
def indexOfGo (needle : List Nat) : List (List Nat) → Nat → Int
  | [], _ => -1
  | buf :: rest, offset =>
    match bufSearch needle buf with
    | some idx => ((offset + idx : Nat) : Int)
    | none => indexOfGo needle rest (offset + buf.length)

/-- `indexOf(char)`: index of the first occurrence, or `-1`.  The call site
passes the string CRLF, which Node converts to the bytes `[13, 10]`. -/
def MultiBuffer.indexOf (mb : MultiBuffer) (needle : List Nat) : Int :=
  indexOfGo needle mb.buffers 0

/-- First occurrence of `needle` in the concatenation of all buffers: what a
boundary-aware search would return.  Used to state claims about `indexOf`. -/
def concatSearch (needle : List Nat) (mb : MultiBuffer) : Option Nat :=
  bufSearch needle mb.buffers.flatten

/-! ### RESPParser tokenizer (lib/parser.js, `_processReadBuffers`) -/

/-- A token pushed by `_pushToken`: `null`, a JS string (code points), or a
`Buffer` (bytes). -/
inductive Tok where
  | nullT : Tok
  | strT (s : List Nat) : Tok
  | bufT (b : List Nat) : Tok
  deriving DecidableEq, Repr

/-- The condition `(len + 2) <= this._readBuffer.length` of the bulk-string
fast path; `len` is `NaN`-aware (`none` compares false). -/
def lenCond : Option Int → Nat → Bool
  | none, _ => false
  | some k, l => decide (k + 2 ≤ (l : Int))

/-- `toNat` of a parsed length for the `shift(len)` call; JS `shift` with a
negative count collects zero bytes, which `Int.toNat` reproduces. -/
def lenToNat : Option Int → Nat
  | none => 0
  | some k => k.toNat

/-- The while-loop of `_processReadBuffers`, with explicit fuel (each
iteration consumes at least two bytes, so fuel `length + 1` is plenty; the
fuel-exhausted branch is never reached there).  Returns the pushed tokens in
order, the remaining read buffer and the `_remainingBulkStringBytes` field;
`none` models an exception escaping from `shift`. -/
def processLoopF : Nat → MultiBuffer → Option Int →
    Option (List Tok × MultiBuffer × Option Int)
  | 0, mb, rem => some ([], mb, rem)
  | f + 1, mb, rem =>
    if mb.length = 0 then some ([], mb, rem)
    else
      let terminal := mb.indexOf crlf
      if terminal = -1 then some ([], mb, rem)
      else
        match mb.shift terminal.toNat with
        | none => none
        | some (msg, mb1) =>
          match mb1.shift 2 with
          | none => none
          | some (_, mb2) =>
            if msg.head? = some 36 then
              let len := jsParseInt (utf8Lossy (msg.drop 1))
              if len = some (-1) then
                match processLoopF f mb2 rem with
                | none => none
                | some (toks, mb3, rem3) => some (Tok.nullT :: toks, mb3, rem3)
              else if len = some 0 then
                match processLoopF f mb2 rem with
                | none => none
                | some (toks, mb3, rem3) => some (Tok.strT [] :: toks, mb3, rem3)
              else if lenCond len mb2.length then
                match mb2.shift (lenToNat len) with
                | none => none
                | some (payload, mb3) =>
                  match mb3.shift 2 with
                  | none => none
                  | some (_, mb4) =>
                    match processLoopF f mb4 rem with
                    | none => none
                    | some (toks, mb5, rem5) =>
                      some (Tok.bufT payload :: toks, mb5, rem5)
              else
                processLoopF f mb2 len
            else
              match processLoopF f mb2 rem with
              | none => none
              | some (toks, mb3, rem3) =>
                some (Tok.strT (utf8Lossy msg) :: toks, mb3, rem3)

/-- The while-loop of `_processReadBuffers` at its canonical fuel. -/
def processLoop (mb : MultiBuffer) (rem : Option Int) :
    Option (List Tok × MultiBuffer × Option Int) :=
  processLoopF (mb.length + 1) mb rem

/-- `_processReadBuffers`: first the pending-bulk-payload check, then the
token scan loop.  `rem` is `_remainingBulkStringBytes` (`none` = `NaN`). -/
def processReadBuffers (mb : MultiBuffer) (rem : Option Int) :
    Option (List Tok × MultiBuffer × Option Int) :=
  match rem with
  | some k =>
    if 0 < k then
      if k + 2 ≤ (mb.length : Int) then
        match mb.shift k.toNat with
        | none => none
        | some (payload, mb1) =>
          match mb1.shift 2 with
          | none => none
          | some (_, mb2) =>
            match processLoop mb2 (some (-1)) with
            | none => none
            | some (toks, mb3, rem3) => some (Tok.bufT payload :: toks, mb3, rem3)
      else some ([], mb, rem)
    else processLoop mb rem
  | none => processLoop mb rem

/-- Parser state relevant to tokenization: the read buffer and
`_remainingBulkStringBytes`. -/
structure TokState where
  readBuffer : MultiBuffer
  rem : Option Int
  deriving DecidableEq, Repr

/-- The parser's initial tokenizer state (constructor of `RESPParser`). -/
def parserInit : TokState := ⟨⟨[]⟩, some (-1)⟩

/-- `_write(chunk, …)`: append the chunk to the read buffer and run
`_processReadBuffers`; returns the tokens pushed by this write. -/
def parserWrite (st : TokState) (chunk : List Nat) :
    Option (List Tok × TokState) :=
  match processReadBuffers (st.readBuffer.add chunk) st.rem with
  | none => none
  | some (toks, mb, rem) => some (toks, ⟨mb, rem⟩)

/-- Feed a list of chunks through `_write` from the initial state,
collecting all pushed tokens in order. -/
def feedChunks (chunks : List (List Nat)) : Option (List Tok × TokState) :=
  chunks.foldl
    (fun acc chunk =>
      match acc with
      | none => none
      | some (toks, st) =>
        match parserWrite st chunk with
        | none => none
        | some (toks2, st2) => some (toks ++ toks2, st2))
    (some ([], parserInit))

/-- Only the tokens produced by feeding the chunks. -/
def fedTokens (chunks : List (List Nat)) : Option (List Tok) :=
  (feedChunks chunks).map Prod.fst

/-! ### RESPParser reply assembly (lib/parser.js, `getResponse`) -/

/-- A decoded reply value as `getResponse` produces it: `null`, a JS string
(code points), a JS number obtained from `parseInt` (`none` = `NaN`), a
(possibly nested) array, or a returned `Error` carrying its message. -/
inductive RValue where
  | nil : RValue
  | str (s : List Nat) : RValue
  | num (n : Option Int) : RValue
  | arr (elems : List RValue) : RValue
  | err (msg : List Nat) : RValue

mutual

/-- Boolean equality on reply values (the nested `arr` constructor prevents
deriving it). -/
def RValue.beq : RValue → RValue → Bool
  | .nil, .nil => true
  | .str s, .str t => decide (s = t)
  | .num a, .num b => decide (a = b)
  | .arr xs, .arr ys => RValue.beqList xs ys
  | .err a, .err b => decide (a = b)
  | _, _ => false

/-- Boolean equality on lists of reply values. -/
def RValue.beqList : List RValue → List RValue → Bool
  | [], [] => true
  | x :: xs, y :: ys => RValue.beq x y && RValue.beqList xs ys
  | _, _ => false

end

mutual

theorem RValue.eq_of_beq : ∀ a b : RValue, RValue.beq a b = true → a = b
  | .nil, .nil, _ => rfl
  | .str _, .str _, h => by
    simp only [RValue.beq, decide_eq_true_eq] at h; rw [h]
  | .num _, .num _, h => by
    simp only [RValue.beq, decide_eq_true_eq] at h; rw [h]
  | .arr xs, .arr ys, h => by
    rw [RValue.eqList_of_beq xs ys h]
  | .err _, .err _, h => by
    simp only [RValue.beq, decide_eq_true_eq] at h; rw [h]
  | .nil, .str _, h | .nil, .num _, h | .nil, .arr _, h | .nil, .err _, h
  | .str _, .nil, h | .str _, .num _, h | .str _, .arr _, h | .str _, .err _, h
  | .num _, .nil, h | .num _, .str _, h | .num _, .arr _, h | .num _, .err _, h
  | .arr _, .nil, h | .arr _, .str _, h | .arr _, .num _, h | .arr _, .err _, h
  | .err _, .nil, h | .err _, .str _, h | .err _, .num _, h | .err _, .arr _, h =>
    by simp [RValue.beq] at h

theorem RValue.eqList_of_beq : ∀ xs ys : List RValue,
    RValue.beqList xs ys = true → xs = ys
  | [], [], _ => rfl
  | x :: xs, y :: ys, h => by
    simp only [RValue.beqList, Bool.and_eq_true] at h
    rw [RValue.eq_of_beq x y h.1, RValue.eqList_of_beq xs ys h.2]
  | [], _ :: _, h | _ :: _, [], h => by simp [RValue.beqList] at h

end

mutual

theorem RValue.beq_self : ∀ a : RValue, RValue.beq a a = true
  | .nil => rfl
  | .str _ => by simp [RValue.beq]
  | .num _ => by simp [RValue.beq]
  | .arr xs => RValue.beqList_self xs
  | .err _ => by simp [RValue.beq]

theorem RValue.beqList_self : ∀ xs : List RValue, RValue.beqList xs xs = true
  | [] => rfl
  | x :: xs => by
    simp only [RValue.beqList, Bool.and_eq_true]
    exact ⟨RValue.beq_self x, RValue.beqList_self xs⟩

end

instance : DecidableEq RValue := fun a b =>
  if h : RValue.beq a b = true then isTrue (RValue.eq_of_beq a b h)
  else isFalse (fun he => h (he ▸ RValue.beq_self a))

/-- `res instanceof Error`. -/
def RValue.isError : RValue → Bool
  | .err _ => true
  | _ => false

/-- Message of an `Error` value (`[]` for non-errors). -/
def RValue.errMsg : RValue → List Nat
  | .err m => m
  | _ => []

/-- Outcome of one `getResponse()` call on a token stream: it suspends
waiting for a token, throws (`Unknown token`), or returns a value together
with the tokens left unconsumed. -/
inductive GR where
  | suspend : GR
  | thrown (msg : List Nat) : GR
  | val (v : RValue) (rest : List Tok) : GR
  deriving DecidableEq

/-- The message of `throw new Error(...)` for an unknown token. -/
def unknownTokenMsg (s : List Nat) : List Nat :=
  strCp "Unknown token: " ++ [39] ++ s ++ [39, 46]

/-- The loop bound of `for (let i = 0; i < arrlen; i++)`: `NaN` and negative
counts give zero iterations. -/
def loopCount : Option Int → Nat
  | none => 0
  | some k => k.toNat

/-- The element loop of the `*` branch of `getResponse`, over an oracle `g`
for the recursive `getResponse()` call: `k` elements still to read, `acc`
the elements read so far.  A returned `Error` element is returned as the
whole response (`if (el instanceof Error) return el`); a thrown error
propagates. -/
def arrLoopG (g : List Tok → GR) : Nat → List RValue → List Tok → GR
  | 0, acc, ts => .val (.arr acc) ts
  | k + 1, acc, ts =>
    match g ts with
    | .suspend => .suspend
    | .thrown m => .thrown m
    | .val v rest =>
      if v.isError then .val v rest
      else arrLoopG g k (acc ++ [v]) rest

/-- `getResponse()` over a token stream, with fuel that is spent only when
entering the element loop of an array (so fuel `length + 1` always
suffices).  Dispatch follows the source: `null` token, `Buffer` token
(converted with `toString('utf-8')`), then the first character of a string
token: `*` array, `:` integer, `+` simple string, `-` error (returned, not
thrown), otherwise `throw`. -/
def getResponseF : Nat → List Tok → GR
  | 0, _ => .suspend
  | _ + 1, [] => .suspend
  | fuel + 1, t :: ts =>
    match t with
    | .nullT => .val .nil ts
    | .bufT b => .val (.str (utf8Lossy b)) ts
    | .strT s =>
      if s.head? = some 42 then
        let arrlen := jsParseInt (s.drop 1)
        if arrlen = some (-1) then .val .nil ts
        else arrLoopG (getResponseF fuel) (loopCount arrlen) [] ts
      else if s.head? = some 58 then .val (.num (jsParseInt (s.drop 1))) ts
      else if s.head? = some 43 then .val (.str (s.drop 1)) ts
      else if s.head? = some 45 then .val (.err (s.drop 1)) ts
      else .thrown (unknownTokenMsg s)

/-- The element loop at a given fuel (abbreviation for statements). -/
def arrLoopF (fuel : Nat) : Nat → List RValue → List Tok → GR :=
  arrLoopG (getResponseF fuel)

/-- `getResponse()` at its canonical fuel. -/
def getResponse (toks : List Tok) : GR :=
  getResponseF (toks.length + 1) toks

/-- The array-element loop at its canonical fuel. -/
def arrLoop (k : Nat) (acc : List RValue) (ts : List Tok) : GR :=
  arrLoopF (ts.length + 1) k acc ts

/-- `k` consecutive `getResponse()` calls that all return values: the
decoded replies and the remaining tokens (`none` if any call suspends or
throws). -/
def decodeVals : Nat → List Tok → Option (List RValue × List Tok)
  | 0, toks => some ([], toks)
  | k + 1, toks =>
    match getResponse toks with
    | .val v rest =>
      match decodeVals k rest with
      | some (vs, r) => some (v :: vs, r)
      | none => none
    | _ => none

/-- Tokenize a whole byte sequence delivered as a single chunk and run one
`getResponse()` on the resulting tokens (`none` if tokenization throws). -/
def decodeChunk (bytes : List Nat) : Option GR :=
  match fedTokens [bytes] with
  | none => none
  | some toks => some (getResponse toks)

/-! ### The token rendezvous (`_getNextToken` / `_pushToken` / `dispose`) -/

/-- The rendezvous half of the parser state: the decoded-token FIFO
`_pendingTokens` and whether a receiver is waiting in `_tokenResolver`
(the slot holds a resolve function; only its presence matters here). -/
structure RState where
  pendingTokens : List Tok
  tokenResolver : Bool
  deriving DecidableEq, Repr

/-- `_pushToken(token)`: wake the pending receiver if there is one
(clearing the slot), otherwise append to the FIFO. -/
def pushToken (s : RState) (t : Tok) : RState :=
  if s.tokenResolver then { s with tokenResolver := false }
  else { s with pendingTokens := s.pendingTokens ++ [t] }

/-- Result of a `_getNextToken()` call: an immediate token, a promise whose
resolver was installed, or the `already waiting for token` error. -/
inductive NextResult where
  | tokenNow (t : Tok) : NextResult
  | awaitPromise : NextResult
  | errorAlready : NextResult
  deriving DecidableEq, Repr

/-- `_getNextToken()`: pop the FIFO if non-empty; otherwise throw if a
receiver is already pending, else install the resolver. -/
def getNextToken (s : RState) : NextResult × RState :=
  match s.pendingTokens with
  | t :: rest => (.tokenNow t, { s with pendingTokens := rest })
  | [] =>
    if s.tokenResolver then (.errorAlready, s)
    else (.awaitPromise, { s with tokenResolver := true })

/-- Events that touch the rendezvous state: a `_write` delivering some list
of decoded tokens through `_pushToken`, a `_getNextToken` call, and
`dispose`. -/
inductive PEvent where
  | write (toks : List Tok) : PEvent
  | getNext : PEvent
  | dispose : PEvent

/-- Apply one event to the rendezvous state. -/
def applyEvent (s : RState) : PEvent → RState
  | .write toks => toks.foldl pushToken s
  | .getNext => (getNextToken s).2
  | .dispose => ⟨[], false⟩

/-- State reached from the constructor state after a list of events. -/
def applyEvents (evs : List PEvent) : RState :=
  evs.foldl applyEvent ⟨[], false⟩

/-- The rendezvous invariant: a pending receiver implies an empty token
FIFO (equivalently, a non-empty FIFO implies no pending receiver). -/
def rendezvousInv (s : RState) : Bool :=
  !s.tokenResolver || s.pendingTokens.isEmpty

/-! ### Wire encoder (lib/client.js, `_write_to_socket` and inline form) -/

/-- A value handed to the encoder as a command item (`parser.RedisType` plus
anything else JS lets through): a string, a `Buffer`, a number, an array, or
`other` — a value that is none of those four (such as `null`), which
`_write_to_socket` silently skips. -/
inductive RedisType where
  | str (s : List Nat) : RedisType
  | buf (b : List Nat) : RedisType
  | num (n : Int) : RedisType
  | arr (elems : List RedisType) : RedisType
  | other : RedisType

mutual

/-- Boolean equality on command items (nested `arr` prevents deriving). -/
def RedisType.beq : RedisType → RedisType → Bool
  | .str s, .str t => decide (s = t)
  | .buf a, .buf b => decide (a = b)
  | .num a, .num b => decide (a = b)
  | .arr xs, .arr ys => RedisType.beqList xs ys
  | .other, .other => true
  | _, _ => false

/-- Boolean equality on lists of command items. -/
def RedisType.beqList : List RedisType → List RedisType → Bool
  | [], [] => true
  | x :: xs, y :: ys => RedisType.beq x y && RedisType.beqList xs ys
  | _, _ => false

end

mutual

theorem RedisType.rt_eq_of_beq : ∀ a b : RedisType, RedisType.beq a b = true → a = b
  | .str _, .str _, h => by
    simp only [RedisType.beq, decide_eq_true_eq] at h; rw [h]
  | .buf _, .buf _, h => by
    simp only [RedisType.beq, decide_eq_true_eq] at h; rw [h]
  | .num _, .num _, h => by
    simp only [RedisType.beq, decide_eq_true_eq] at h; rw [h]
  | .arr xs, .arr ys, h => by rw [RedisType.rt_eqList_of_beq xs ys h]
  | .other, .other, _ => rfl
  | .str _, .buf _, h | .str _, .num _, h | .str _, .arr _, h | .str _, .other, h
  | .buf _, .str _, h | .buf _, .num _, h | .buf _, .arr _, h | .buf _, .other, h
  | .num _, .str _, h | .num _, .buf _, h | .num _, .arr _, h | .num _, .other, h
  | .arr _, .str _, h | .arr _, .buf _, h | .arr _, .num _, h | .arr _, .other, h
  | .other, .str _, h | .other, .buf _, h | .other, .num _, h | .other, .arr _, h =>
    by simp [RedisType.beq] at h

theorem RedisType.rt_eqList_of_beq : ∀ xs ys : List RedisType,
    RedisType.beqList xs ys = true → xs = ys
  | [], [], _ => rfl
  | x :: xs, y :: ys, h => by
    simp only [RedisType.beqList, Bool.and_eq_true] at h
    rw [RedisType.rt_eq_of_beq x y h.1, RedisType.rt_eqList_of_beq xs ys h.2]
  | [], _ :: _, h | _ :: _, [], h => by simp [RedisType.beqList] at h

end

mutual

theorem RedisType.rt_beq_self : ∀ a : RedisType, RedisType.beq a a = true
  | .str _ => by simp [RedisType.beq]
  | .buf _ => by simp [RedisType.beq]
  | .num _ => by simp [RedisType.beq]
  | .arr xs => RedisType.rt_beqList_self xs
  | .other => rfl

theorem RedisType.rt_beqList_self : ∀ xs : List RedisType,
    RedisType.beqList xs xs = true
  | [] => rfl
  | x :: xs => by
    simp only [RedisType.beqList, Bool.and_eq_true]
    exact ⟨RedisType.rt_beq_self x, RedisType.rt_beqList_self xs⟩

end

instance : DecidableEq RedisType := fun a b =>
  if h : RedisType.beq a b = true then isTrue (RedisType.rt_eq_of_beq a b h)
  else isFalse (fun he => h (he ▸ RedisType.rt_beq_self a))

mutual

/-- `_write_to_socket(type)`: the bytes this call writes to the socket.  An
array writes a `*`-header then recurses; strings and Buffers become bulk
strings (`Buffer.byteLength(type, 'utf8')` bytes); numbers become integer
frames; anything else writes nothing. -/
def write_to_socket : RedisType → List Nat
  | .arr es => 42 :: natDigits es.length ++ crlf ++ writeList es
  | .str s => 36 :: natDigits (utf8Encode s).length ++ crlf ++ utf8Encode s ++ crlf
  | .buf b => 36 :: natDigits b.length ++ crlf ++ b ++ crlf
  | .num n => 58 :: intDigits n ++ crlf
  | .other => []

/-- The `for (let el of type)` loop of `_write_to_socket`. -/
def writeList : List RedisType → List Nat
  | [] => []
  | t :: ts => write_to_socket t ++ writeList ts

end

mutual

/-- `String(el)` as `Array.prototype.join` applies it to an element: strings
unchanged, Buffers via `toString()` (UTF-8), numbers in decimal, arrays
joined by commas, and `other` rendered empty (the JS behaviour for `null`
and `undefined`; other unencodable values would render differently, but no
claim depends on them). -/
def joinItemStr : RedisType → List Nat
  | .str s => s
  | .buf b => utf8Lossy b
  | .num n => intDigits n
  | .arr es => joinComma es
  | .other => []

/-- Comma join used by nested array stringification. -/
def joinComma : List RedisType → List Nat
  | [] => []
  | [t] => joinItemStr t
  | t :: ts => joinItemStr t ++ 44 :: joinComma ts

end

/-- `cmd.join(' ')` on the command items. -/
def joinSpace : List RedisType → List Nat
  | [] => []
  | [t] => joinItemStr t
  | t :: ts => joinItemStr t ++ 32 :: joinSpace ts

/-! ### Command engine (lib/client.js, `_run_command_queue`) -/

/-- A queued command: the argument items and the inline hint.  The two
completion callbacks are identified positionally by the pump result. -/
structure QCmd where
  cmd : List RedisType
  inline : Bool
  deriving DecidableEq

/-- The bytes one command puts on the wire: the inline form
`cmd.join(' ') + CRLF` written as a JS string (hence UTF-8 encoded), or the
array-of-bulk-strings form via `_write_to_socket`. -/
def encodeCmd (q : QCmd) : List Nat :=
  if q.inline then utf8Encode (joinSpace q.cmd ++ crlf)
  else write_to_socket (.arr q.cmd)

/-- How one submission's completion slot is settled: `resolve(res)` or
`reject(res)` with the error's message. -/
inductive Completion where
  | resolved (v : RValue) : Completion
  | rejected (msg : List Nat) : Completion
  deriving DecidableEq

/-- Why the pump loop stopped: the queue drained (and `_running` was reset),
the `await` suspended forever (no further reply ever decodes), or
`getResponse` threw (the exception escapes the async loop). -/
inductive PumpExit where
  | drained : PumpExit
  | suspended : PumpExit
  | thrown (msg : List Nat) : PumpExit
  deriving DecidableEq

/-- Observable outcome of one pump run: bytes written in order, completions
in order (one per command that got a reply), the commands left queued when
the pump stopped, the tokens left unconsumed, and how it stopped. -/
structure PumpResult where
  wire : List Nat
  completions : List Completion
  leftover : List QCmd
  restToks : List Tok
  exit : PumpExit
  deriving DecidableEq

/-- The `while` loop of `_run_command_queue`, sequentialized against the
eventual inbound token stream: pop the head command, write its bytes, await
one `getResponse()`.  A suspended or thrown `await` leaves `_running` set
forever and resolves nothing for the in-flight command. -/
def runQueueLoop : List QCmd → List Tok → PumpResult
  | [], toks => ⟨[], [], [], toks, .drained⟩
  | q :: qs, toks =>
    let w := encodeCmd q
    match getResponse toks with
    | .suspend => ⟨w, [], qs, toks, .suspended⟩
    | .thrown m => ⟨w, [], qs, toks, .thrown m⟩
    | .val v rest =>
      let c := if v.isError then Completion.rejected v.errMsg
               else Completion.resolved v
      let r := runQueueLoop qs rest
      ⟨w ++ r.wire, c :: r.completions, r.leftover, r.restToks, r.exit⟩

/-- Engine state between calls: the command FIFO and the `_running` flag. -/
structure Engine where
  queue : List QCmd
  running : Bool
  deriving DecidableEq

/-- `_serialize_command`: push the command and call `_run_command_queue`,
which returns immediately when `_running` is set; otherwise the pump runs
against the token stream.  Returns the new engine state and the pump
activity (if any). -/
def serializeCommand (e : Engine) (q : QCmd) (toks : List Tok) :
    Engine × Option PumpResult :=
  let queue1 := e.queue ++ [q]
  if e.running then ({ queue := queue1, running := true }, none)
  else
    let r := runQueueLoop queue1 toks
    ({ queue := r.leftover, running := decide (r.exit ≠ .drained) }, some r)

/-- Turn a decoded reply into the completion the pump performs for it. -/
def completionOf (v : RValue) : Completion :=
  if v.isError then .rejected v.errMsg else .resolved v

/-! ### Closed evidence and counterexamples -/

/-- C1: divergence witness for fragmentation independence.  The well-formed
frame `+OK CRLF` fed as a single chunk tokenizes to one token whose decode
is the reply `OK`; the same bytes partitioned as `+OK CR` then `LF` produce
no token at all (the straddled CRLF is never found, and an empty token list
decodes to nothing, i.e. `getResponse` suspends forever).  Likewise the
bulk frame `$5 CRLF ab CRLF c CRLF` (payload `ab CRLF c`) decodes correctly
as one chunk but, split after its eighth byte, yields the bogus line token
`ab` instead of the payload. -/
theorem c1_fragmentation_divergence :
    fedTokens [[43, 79, 75, 13, 10]] = some [Tok.strT [43, 79, 75]]
    ∧ fedTokens [[43, 79, 75, 13], [10]] = some []
    ∧ [43, 79, 75, 13] ++ [10] = [43, 79, 75, 13, 10]
    ∧ getResponse [Tok.strT [43, 79, 75]] = .val (.str [79, 75]) []
    ∧ getResponse [] = .suspend
    ∧ fedTokens [[36, 53, 13, 10, 97, 98, 13, 10, 99, 13, 10]]
        = some [Tok.bufT [97, 98, 13, 10, 99]]
    ∧ fedTokens [[36, 53, 13, 10, 97, 98, 13, 10], [99, 13, 10]]
        = some [Tok.strT [97, 98]]
    ∧ [36, 53, 13, 10, 97, 98, 13, 10] ++ [99, 13, 10]
        = [36, 53, 13, 10, 97, 98, 13, 10, 99, 13, 10] := by decide

/-- C2: counterexample.  Decoding the array reply
`*2 CRLF -ERR x CRLF +OK CRLF` does not produce the array
`[ServerError "ERR x", "OK"]`: `getResponse` returns the nested error as
the whole (top-level) response and leaves the `+OK` token unconsumed. -/
theorem c2_nested_error_counterexample :
    decodeChunk ([42, 50, 13, 10] ++ [45, 69, 82, 82, 32, 120, 13, 10]
        ++ [43, 79, 75, 13, 10])
      = some (.val (.err [69, 82, 82, 32, 120]) [Tok.strT [43, 79, 75]])
    ∧ decodeChunk ([42, 50, 13, 10] ++ [45, 69, 82, 82, 32, 120, 13, 10]
        ++ [43, 79, 75, 13, 10])
      ≠ some (.val (.arr [.err [69, 82, 82, 32, 120], .str [79, 75]]) []) := by
  decide

/-- C4: counterexample.  For the bulk frame `$1 CRLF 0xFF CRLF` the
tokenizer does deliver the exact payload byte `0xFF`, but `getResponse`
converts it with `toString('utf-8')`, returning the one-character string
U+FFFD — not the payload byte, and not recoverable as that byte (its UTF-8
encoding is `EF BF BD`). -/
theorem c4_bulk_lossy_counterexample :
    fedTokens [[36, 49, 13, 10, 255, 13, 10]] = some [Tok.bufT [255]]
    ∧ getResponse [Tok.bufT [255]] = .val (.str [65533]) []
    ∧ utf8Encode [65533] = [239, 191, 189]
    ∧ ([65533] : List Nat) ≠ [255] := by decide

/-- C5: divergence witness for the empty bulk string.  `$-1 CRLF` and
`*-1 CRLF` do decode to `null`, but `$0 CRLF CRLF` pushes the empty-string
token without consuming the trailing CRLF, so that CRLF is re-tokenized as
a second spurious empty token; and `getResponse` on an empty-string token
falls through every dispatch case and throws `Unknown token`.  With a
following `+OK` frame the spurious token desynchronizes the stream. -/
theorem c5_empty_bulk_divergence :
    fedTokens [[36, 48, 13, 10, 13, 10]] = some [Tok.strT [], Tok.strT []]
    ∧ getResponse [Tok.strT []] = .thrown (unknownTokenMsg [])
    ∧ fedTokens [[36, 45, 49, 13, 10]] = some [Tok.nullT]
    ∧ getResponse [Tok.nullT] = .val .nil []
    ∧ fedTokens [[42, 45, 49, 13, 10]] = some [Tok.strT [42, 45, 49]]
    ∧ getResponse [Tok.strT [42, 45, 49]] = .val .nil []
    ∧ fedTokens [[36, 48, 13, 10, 13, 10, 43, 79, 75, 13, 10]]
        = some [Tok.strT [], Tok.strT [], Tok.strT [43, 79, 75]] := by decide

/-- C6: counterexample.  A framing violation (unknown type byte `?`) while
two commands are in flight or queued fails neither of them: the pump's
`await` throws, no completion slot is settled (`completions = []`, not two
copies of a transport error), the second command stays queued, and a
submission attempted afterwards is appended to the queue (not refused) with
the pump permanently stuck (`_running` still set). -/
theorem c6_no_fanout_counterexample :
    runQueueLoop
        [⟨[.str [71, 69, 84], .str [97]], true⟩,
          ⟨[.str [71, 69, 84], .str [98]], true⟩]
        [Tok.strT [63, 120]]
      = ⟨encodeCmd ⟨[.str [71, 69, 84], .str [97]], true⟩, [],
          [⟨[.str [71, 69, 84], .str [98]], true⟩], [Tok.strT [63, 120]],
          .thrown (unknownTokenMsg [63, 120])⟩
    ∧ serializeCommand ⟨[⟨[.str [71, 69, 84], .str [98]], true⟩], true⟩
        ⟨[.str [71, 69, 84], .str [99]], true⟩ []
      = (⟨[⟨[.str [71, 69, 84], .str [98]], true⟩,
            ⟨[.str [71, 69, 84], .str [99]], true⟩], true⟩, none) := by decide

/-- C8: divergence witness for cross-boundary search.  With the chunk queue
holding `a CR` and `LF b`, the concatenation contains CRLF at offset 1 but
`indexOf` returns `-1`; with chunks `a CR` and `LF b CR LF` it returns 4
(the occurrence wholly inside the second chunk) instead of 1. -/
theorem c8_indexof_divergence :
    MultiBuffer.indexOf ⟨[[97, 13], [10, 98]]⟩ crlf = -1
    ∧ concatSearch crlf ⟨[[97, 13], [10, 98]]⟩ = some 1
    ∧ MultiBuffer.indexOf ⟨[[97, 13], [10, 98, 13, 10]]⟩ crlf = 4
    ∧ concatSearch crlf ⟨[[97, 13], [10, 98, 13, 10]]⟩ = some 1 := by decide

/-! ### Arithmetic lemmas about digit rendering and parsing -/

theorem natDigitsAux_mem_digit :
    ∀ f n c, c ∈ natDigitsAux f n → 48 ≤ c ∧ c ≤ 57 := by
  intro f
  induction f with
  | zero => intro n c hc; simp [natDigitsAux] at hc
  | succ f ih =>
    intro n c hc
    match n with
    | 0 => simp [natDigitsAux] at hc
    | m + 1 =>
      simp only [natDigitsAux, List.mem_cons] at hc
      rcases hc with h | h
      · subst h
        constructor
        · omega
        · have : (m + 1) % 10 < 10 := Nat.mod_lt _ (by omega)
          omega
      · exact ih _ _ h

theorem natDigits_mem_digit : ∀ n c, c ∈ natDigits n → 48 ≤ c ∧ c ≤ 57 := by
  intro n c hc
  unfold natDigits at hc
  by_cases h : n = 0
  · simp [h] at hc
    omega
  · simp only [h, if_false, List.mem_reverse] at hc
    exact natDigitsAux_mem_digit _ _ _ hc

theorem natDigitsAux_ne_nil : ∀ f n, 1 ≤ n → n ≤ f → natDigitsAux f n ≠ [] := by
  intro f n h1 h2
  match f, n with
  | 0, n => omega
  | f + 1, 0 => omega
  | f + 1, m + 1 => simp [natDigitsAux]

theorem natDigits_ne_nil (n : Nat) : natDigits n ≠ [] := by
  unfold natDigits
  by_cases h : n = 0
  · simp [h]
  · simp only [h, if_false, ne_eq, List.reverse_eq_nil_iff]
    exact natDigitsAux_ne_nil n n (by omega) (by omega)

theorem natDigitsAux_val :
    ∀ f n a, n ≤ f →
      ((natDigitsAux f n).reverse).foldl (fun a c => a * 10 + (c - 48)) a
        = a * 10 ^ (natDigitsAux f n).length + n := by
  intro f
  induction f with
  | zero =>
    intro n a hn
    have : n = 0 := by omega
    subst this
    simp [natDigitsAux]
  | succ f ih =>
    intro n a hn
    match n with
    | 0 => simp [natDigitsAux]
    | m + 1 =>
      have hq : (m + 1) / 10 ≤ f := by
        have := Nat.div_lt_self (show 0 < m + 1 by omega) (show 1 < 10 by omega)
        omega
      simp only [natDigitsAux, List.reverse_cons, List.foldl_append, List.foldl_cons,
        List.foldl_nil, List.length_cons]
      rw [ih _ a hq]
      have hmod : (m + 1) % 10 + 48 - 48 = (m + 1) % 10 := by omega
      rw [hmod]
      have hdm : (m + 1) / 10 * 10 + (m + 1) % 10 = m + 1 := by omega
      ring_nf
      omega

theorem digitsVal_natDigits (n : Nat) : digitsVal (natDigits n) = n := by
  unfold natDigits digitsVal
  by_cases h : n = 0
  · simp [h]
  · simp only [h, if_false]
    have := natDigitsAux_val n n 0 (le_refl n)
    simpa using this

theorem parseDigits_natDigits (n : Nat) : parseDigits (natDigits n) = some n := by
  unfold parseDigits
  have htw : (natDigits n).takeWhile isDigitCp = natDigits n := by
    apply List.takeWhile_eq_self_iff.mpr
    intro c hc
    have := natDigits_mem_digit n c hc
    simp [isDigitCp]
    omega
  rw [htw]
  rcases hne : natDigits n with _ | ⟨c, cs⟩
  · exact absurd hne (natDigits_ne_nil n)
  · show some (digitsVal (c :: cs)) = some n
    rw [← hne, digitsVal_natDigits]

theorem natDigits_head_digit (n : Nat) :
    ∃ c cs, natDigits n = c :: cs ∧ 48 ≤ c ∧ c ≤ 57 := by
  rcases hne : natDigits n with _ | ⟨c, cs⟩
  · exact absurd hne (natDigits_ne_nil n)
  · refine ⟨c, cs, rfl, ?_⟩
    have : c ∈ natDigits n := by rw [hne]; exact List.mem_cons_self _ _
    exact natDigits_mem_digit n c this

theorem jsParseInt_natDigits (n : Nat) : jsParseInt (natDigits n) = some (n : Int) := by
  obtain ⟨c, cs, heq, h48, h57⟩ := natDigits_head_digit n
  have hns : isJsSpace c = false := by
    simp only [isJsSpace, Bool.or_eq_false_iff, decide_eq_false_iff_not]
    omega
  have hdw : (natDigits n).dropWhile isJsSpace = natDigits n := by
    rw [heq, List.dropWhile_cons, hns]
    simp
  have h45 : ¬ (natDigits n).head? = some 45 := by
    rw [heq]
    simp only [List.head?_cons, Option.some.injEq]
    omega
  have h43 : ¬ (natDigits n).head? = some 43 := by
    rw [heq]
    simp only [List.head?_cons, Option.some.injEq]
    omega
  simp only [jsParseInt, hdw, if_neg h45, if_neg h43, parseDigits_natDigits]
  simp

theorem jsParseInt_intDigits (n : Int) : jsParseInt (intDigits n) = some n := by
  unfold intDigits
  by_cases hn : n < 0
  · simp only [hn, if_true]
    have hns : isJsSpace 45 = false := by decide
    have hdw : (45 :: natDigits (-n).toNat).dropWhile isJsSpace
        = 45 :: natDigits (-n).toNat := by
      rw [List.dropWhile_cons, hns]
      simp
    have h1 : ((-n).toNat : Int) = -n := by omega
    simp only [jsParseInt, hdw, List.head?_cons, List.tail_cons,
      parseDigits_natDigits]
    simp [h1]
  · simp only [hn, if_false, jsParseInt_natDigits]
    have : (n.toNat : Int) = n := by omega
    rw [this]

theorem natDigits_not_cr (n : Nat) : 13 ∉ natDigits n := by
  intro h
  have := natDigits_mem_digit n 13 h
  omega

theorem natDigits_ascii (n : Nat) : ∀ c ∈ natDigits n, c < 128 := by
  intro c hc
  have := natDigits_mem_digit n c hc
  omega

/-! ### UTF-8 lemmas -/

theorem u8Run_ascii : ∀ s : List Nat, (∀ b ∈ s, b < 128) → u8Run none s = s := by
  intro s
  induction s with
  | nil => intro; rfl
  | cons b rest ih =>
    intro h
    have hb : b < 128 := h b (List.mem_cons_self _ _)
    simp only [u8Run, u8Step, u8Lead, if_pos hb]
    simp only [List.cons_append, List.nil_append, List.cons.injEq, true_and]
    exact ih (fun x hx => h x (List.mem_cons_of_mem _ hx))

theorem utf8Lossy_ascii (s : List Nat) (h : ∀ b ∈ s, b < 128) :
    utf8Lossy s = s := u8Run_ascii s h

theorem utf8EncodeChar_ne_nil (c : Nat) : utf8EncodeChar c ≠ [] := by
  unfold utf8EncodeChar
  split <;> try simp
  split <;> try simp
  split <;> try simp
  split <;> try simp
  split <;> simp

theorem utf8Encode_ne_nil (s : List Nat) (h : s ≠ []) : utf8Encode s ≠ [] := by
  match s with
  | c :: cs =>
    unfold utf8Encode
    intro hnil
    simp only [List.flatMap_cons] at hnil
    exact utf8EncodeChar_ne_nil c (List.append_eq_nil.mp hnil).1

theorem utf8Encode_ascii (s : List Nat) (h : ∀ c ∈ s, c < 128) :
    utf8Encode s = s := by
  induction s with
  | nil => rfl
  | cons c cs ih =>
    have hc : c < 128 := h c (List.mem_cons_self _ _)
    unfold utf8Encode at ih ⊢
    simp only [List.flatMap_cons, utf8EncodeChar, if_pos hc, List.cons_append,
      List.nil_append, List.cons.injEq, true_and]
    exact ih (fun x hx => h x (List.mem_cons_of_mem _ hx))

/-! ### MultiBuffer lemmas -/

/-- A chunk queue holding the given bytes as one chunk (no chunk at all when
they are empty) — the state `shift` leaves behind after consuming a prefix
of a single chunk. -/
def singleMB (bytes : List Nat) : MultiBuffer :=
  if bytes = [] then ⟨[]⟩ else ⟨[bytes]⟩

theorem singleMB_length (bytes : List Nat) : (singleMB bytes).length = bytes.length := by
  unfold singleMB
  by_cases h : bytes = [] <;> simp [h, MultiBuffer.length]

theorem length_single (chunk : List Nat) :
    (⟨[chunk]⟩ : MultiBuffer).length = chunk.length := by
  simp [MultiBuffer.length]

theorem shiftLoop_single (chunk : List Nat) (n : Nat) (hch : chunk ≠ [])
    (hn : n ≤ chunk.length) :
    shiftLoop n [chunk] = (chunk.take n, (singleMB (chunk.drop n)).buffers) := by
  match n with
  | 0 => simp [shiftLoop, singleMB, hch]
  | m + 1 =>
    by_cases hgt : chunk.length > m + 1
    · have hd : chunk.drop (m + 1) ≠ [] := by
        intro h
        have := List.drop_eq_nil_iff.mp h
        omega
      simp only [shiftLoop, if_pos hgt, singleMB, if_neg hd]
    · have h0 : m + 1 - chunk.length = 0 := by omega
      have hEq : chunk.length = m + 1 := by omega
      simp only [shiftLoop, if_neg hgt, h0]
      have ht : chunk.take (m + 1) = chunk := List.take_of_length_le (by omega)
      have hd : chunk.drop (m + 1) = [] := List.drop_eq_nil_of_le (by omega)
      simp [ht, hd, singleMB]

theorem shift_single (chunk : List Nat) (n : Nat) (hch : chunk ≠ [])
    (hn : n ≤ chunk.length) :
    MultiBuffer.shift ⟨[chunk]⟩ n = some (chunk.take n, singleMB (chunk.drop n)) := by
  unfold MultiBuffer.shift
  rw [if_neg (by rw [length_single]; omega), shiftLoop_single chunk n hch hn]

theorem shiftLoop_length :
    ∀ bufs : List (List Nat), ∀ n, n ≤ (bufs.map List.length).sum →
      (shiftLoop n bufs).1.length = n
      ∧ ((shiftLoop n bufs).2.map List.length).sum = (bufs.map List.length).sum - n := by
  intro bufs
  induction bufs with
  | nil =>
    intro n hn
    simp at hn
    subst hn
    simp [shiftLoop]
  | cons buf rest ih =>
    intro n hn
    match n with
    | 0 => simp [shiftLoop]
    | m + 1 =>
      by_cases hgt : buf.length > m + 1
      · simp only [shiftLoop, if_pos hgt, List.map_cons, List.sum_cons]
        constructor
        · simp
          omega
        · simp
          omega
      · simp only [List.map_cons, List.sum_cons] at hn
        have hrec := ih (m + 1 - buf.length) (by omega)
        simp only [shiftLoop, if_neg hgt, List.map_cons, List.sum_cons]
        constructor
        · simp only [List.length_append]
          omega
        · omega

theorem shift_spec (mb : MultiBuffer) (n : Nat) (p : List Nat) (mb2 : MultiBuffer)
    (h : mb.shift n = some (p, mb2)) :
    p.length = n ∧ mb2.length = mb.length - n := by
  unfold MultiBuffer.shift at h
  by_cases hgt : n > mb.length
  · rw [if_pos hgt] at h
    cases h
  · rw [if_neg hgt] at h
    have := shiftLoop_length mb.buffers n (by
      have : mb.length = (mb.buffers.map List.length).sum := rfl
      omega)
    cases h
    exact ⟨this.1, this.2⟩

theorem shift_is_some (mb : MultiBuffer) (n : Nat) (h : n ≤ mb.length) :
    mb.shift n = some ((shiftLoop n mb.buffers).1, ⟨(shiftLoop n mb.buffers).2⟩) := by
  unfold MultiBuffer.shift
  rw [if_neg (by omega)]

theorem startsWith_length_le :
    ∀ needle hay : List Nat, startsWith needle hay = true → needle.length ≤ hay.length := by
  intro needle
  induction needle with
  | nil => intro hay _; simp
  | cons a as ih =>
    intro hay h
    match hay with
    | [] => simp [startsWith] at h
    | b :: bs =>
      simp only [startsWith, Bool.and_eq_true] at h
      have := ih bs h.2
      simp only [List.length_cons]
      omega

theorem bufSearch_bound :
    ∀ hay needle i, bufSearch needle hay = some i → i + needle.length ≤ hay.length := by
  intro hay
  induction hay with
  | nil =>
    intro needle i h
    unfold bufSearch at h
    by_cases hs : startsWith needle [] = true
    · rw [if_pos hs] at h
      cases h
      simpa using startsWith_length_le needle [] hs
    · rw [if_neg hs] at h
      cases h
  | cons b bs ih =>
    intro needle i h
    unfold bufSearch at h
    by_cases hs : startsWith needle (b :: bs) = true
    · rw [if_pos hs] at h
      cases h
      simpa using startsWith_length_le needle (b :: bs) hs
    · rw [if_neg hs] at h
      match hrec : bufSearch needle bs with
      | none => rw [hrec] at h; cases h
      | some j =>
        rw [hrec] at h
        cases h
        have := ih needle j hrec
        simp only [List.length_cons]
        omega

theorem indexOfGo_bound :
    ∀ bufs : List (List Nat), ∀ needle off,
      indexOfGo needle bufs off ≠ -1 →
      (off : Int) ≤ indexOfGo needle bufs off
      ∧ (indexOfGo needle bufs off).toNat + needle.length
          ≤ off + (bufs.map List.length).sum := by
  intro bufs
  induction bufs with
  | nil => intro needle off h; simp [indexOfGo] at h
  | cons buf rest ih =>
    intro needle off h
    unfold indexOfGo at h ⊢
    match hs : bufSearch needle buf with
    | some idx =>
      simp only [hs]
      have := bufSearch_bound buf needle idx hs
      constructor
      · omega
      · simp only [Int.toNat_ofNat, List.map_cons, List.sum_cons]
        omega
    | none =>
      simp only [hs] at h ⊢
      have := ih needle (off + buf.length) h
      simp only [List.map_cons, List.sum_cons]
      constructor
      · omega
      · omega

theorem indexOf_bound (mb : MultiBuffer) (needle : List Nat)
    (h : mb.indexOf needle ≠ -1) :
    0 ≤ mb.indexOf needle ∧ (mb.indexOf needle).toNat + needle.length ≤ mb.length := by
  unfold MultiBuffer.indexOf at h ⊢
  have := indexOfGo_bound mb.buffers needle 0 h
  unfold MultiBuffer.length
  simpa using this

/-! ### Tokenizer-loop fuel stability -/

theorem processLoopF_stable :
    ∀ f g mb rem, mb.length < f → mb.length < g →
      processLoopF f mb rem = processLoopF g mb rem := by
  intro f
  induction f using Nat.strong_induction_on with
  | _ f ih =>
    intro g mb rem hf hg
    match f, g with
    | f' + 1, g' + 1 =>
      by_cases h0 : mb.length = 0
      · simp only [processLoopF, if_pos h0]
      · by_cases ht : mb.indexOf crlf = -1
        · simp only [processLoopF, if_neg h0, if_pos ht]
        · obtain ⟨hge, hb⟩ := indexOf_bound mb crlf ht
          have htle : (mb.indexOf crlf).toNat + 2 ≤ mb.length := hb
          obtain ⟨msg, mb1, hs1⟩ : ∃ msg mb1,
              mb.shift (mb.indexOf crlf).toNat = some (msg, mb1) :=
            ⟨_, _, shift_is_some mb _ (by omega)⟩
          obtain ⟨hm1, hl1⟩ := shift_spec _ _ _ _ hs1
          obtain ⟨cr2, mb2, hs2⟩ : ∃ c mb2, mb1.shift 2 = some (c, mb2) :=
            ⟨_, _, shift_is_some mb1 2 (by omega)⟩
          obtain ⟨hm2, hl2⟩ := shift_spec _ _ _ _ hs2
          have hrec : ∀ rem2, processLoopF f' mb2 rem2 = processLoopF g' mb2 rem2 := by
            intro rem2
            exact ih f' (by omega) g' mb2 rem2 (by omega) (by omega)
          simp only [processLoopF, if_neg h0, if_neg ht, hs1, hs2]
          by_cases h36 : msg.head? = some 36
          · simp only [if_pos h36]
            by_cases hneg1 : jsParseInt (utf8Lossy (msg.drop 1)) = some (-1)
            · simp only [if_pos hneg1, hrec rem]
            · by_cases hm0 : jsParseInt (utf8Lossy (msg.drop 1)) = some 0
              · simp only [if_neg hneg1, if_pos hm0, hrec rem]
              · by_cases hlc :
                    lenCond (jsParseInt (utf8Lossy (msg.drop 1))) mb2.length = true
                · have hlenn : lenToNat (jsParseInt (utf8Lossy (msg.drop 1)))
                      ≤ mb2.length := by
                    rcases hj : jsParseInt (utf8Lossy (msg.drop 1)) with _ | k
                    · rw [hj] at hlc
                      simp [lenCond] at hlc
                    · rw [hj] at hlc
                      simp only [lenCond, decide_eq_true_eq] at hlc
                      simp only [lenToNat]
                      omega
                  obtain ⟨pay, mb3, hs3⟩ : ∃ p m,
                      mb2.shift (lenToNat (jsParseInt (utf8Lossy (msg.drop 1))))
                        = some (p, m) :=
                    ⟨_, _, shift_is_some mb2 _ hlenn⟩
                  obtain ⟨hm3, hl3⟩ := shift_spec _ _ _ _ hs3
                  simp only [if_neg hneg1, if_neg hm0, if_pos hlc, hs3]
                  rcases hs4 : mb3.shift 2 with _ | ⟨c4, mb4⟩
                  · simp only [hs4]
                  · obtain ⟨hm4, hl4⟩ := shift_spec _ _ _ _ hs4
                    have hr4 : processLoopF f' mb4 rem = processLoopF g' mb4 rem :=
                      ih f' (by omega) g' mb4 rem (by omega) (by omega)
                    simp only [hs4, hr4]
                · simp only [if_neg hneg1, if_neg hm0, if_neg hlc, hrec]
          · simp only [if_neg h36, hrec rem]

theorem processLoop_eq_processLoopF (f : Nat) (mb : MultiBuffer) (rem : Option Int)
    (h : mb.length < f) : processLoopF f mb rem = processLoop mb rem :=
  processLoopF_stable f (mb.length + 1) mb rem h (by omega)

/-- One unrolling of the token-scan loop (stated so that a rewrite unfolds
exactly one iteration). -/
theorem processLoopF_step (f : Nat) (mb : MultiBuffer) (rem : Option Int) :
    processLoopF (f + 1) mb rem =
      (if mb.length = 0 then some ([], mb, rem)
      else
        let terminal := mb.indexOf crlf
        if terminal = -1 then some ([], mb, rem)
        else
          match mb.shift terminal.toNat with
          | none => none
          | some (msg, mb1) =>
            match mb1.shift 2 with
            | none => none
            | some (_, mb2) =>
              if msg.head? = some 36 then
                let len := jsParseInt (utf8Lossy (msg.drop 1))
                if len = some (-1) then
                  match processLoopF f mb2 rem with
                  | none => none
                  | some (toks, mb3, rem3) => some (Tok.nullT :: toks, mb3, rem3)
                else if len = some 0 then
                  match processLoopF f mb2 rem with
                  | none => none
                  | some (toks, mb3, rem3) => some (Tok.strT [] :: toks, mb3, rem3)
                else if lenCond len mb2.length then
                  match mb2.shift (lenToNat len) with
                  | none => none
                  | some (payload, mb3) =>
                    match mb3.shift 2 with
                    | none => none
                    | some (_, mb4) =>
                      match processLoopF f mb4 rem with
                      | none => none
                      | some (toks, mb5, rem5) =>
                        some (Tok.bufT payload :: toks, mb5, rem5)
                else
                  processLoopF f mb2 len
              else
                match processLoopF f mb2 rem with
                | none => none
                | some (toks, mb3, rem3) =>
                  some (Tok.strT (utf8Lossy msg) :: toks, mb3, rem3)) := rfl

/-! ### Single-chunk tokenization lemmas -/

/-- The token loop started on a byte sequence held as one chunk. -/
def tokLoop (bytes : List Nat) (rem : Option Int) :
    Option (List Tok × MultiBuffer × Option Int) :=
  processLoop (singleMB bytes) rem

theorem singleMB_of_ne (l : List Nat) (h : l ≠ []) : singleMB l = ⟨[l]⟩ := if_neg h

theorem bufSearch_crlf_at (line rest : List Nat) (h13 : 13 ∉ line) :
    bufSearch crlf (line ++ (crlf ++ rest)) = some line.length := by
  induction line with
  | nil => simp [bufSearch, startsWith, crlf]
  | cons b bs ih =>
    have hb : ¬ (13 = b) := by
      intro h
      exact h13 (h ▸ List.mem_cons_self _ _)
    have hbs : 13 ∉ bs := fun h => h13 (List.mem_cons_of_mem _ h)
    have hsw : startsWith crlf (b :: (bs ++ (crlf ++ rest))) = false := by
      simp only [crlf, startsWith, List.cons_append]
      simp only [Bool.and_eq_false_iff, decide_eq_false_iff_not]
      exact Or.inl hb
    simp only [List.cons_append, bufSearch, List.append_eq]
    rw [hsw]
    simp only [Bool.false_eq_true, if_false, ih hbs, List.length_cons]
    rfl

theorem indexOf_single_some (chunk : List Nat) (i : Nat)
    (h : bufSearch crlf chunk = some i) :
    MultiBuffer.indexOf ⟨[chunk]⟩ crlf = (i : Int) := by
  unfold MultiBuffer.indexOf indexOfGo
  rw [h]
  simp

theorem tokLoop_nil (rem : Option Int) : tokLoop [] rem = some ([], ⟨[]⟩, rem) := rfl

theorem tokLoop_line (line rest : List Nat) (rem : Option Int)
    (h13 : 13 ∉ line) (h36 : line.head? ≠ some 36) :
    tokLoop (line ++ crlf ++ rest) rem
      = match tokLoop rest rem with
        | none => none
        | some (toks, mb3, rem3) =>
          some (Tok.strT (utf8Lossy line) :: toks, mb3, rem3) := by
  have hchne : line ++ crlf ++ rest ≠ [] := by simp [crlf]
  have hassoc : line ++ crlf ++ rest = line ++ (crlf ++ rest) := by
    rw [List.append_assoc]
  have hlen : (line ++ crlf ++ rest).length = line.length + 2 + rest.length := by
    simp [crlf]
    omega
  have hidx : MultiBuffer.indexOf ⟨[line ++ crlf ++ rest]⟩ crlf = (line.length : Int) := by
    apply indexOf_single_some
    rw [hassoc]
    exact bufSearch_crlf_at line rest h13
  have h0 : (⟨[line ++ crlf ++ rest]⟩ : MultiBuffer).length ≠ 0 := by
    rw [length_single, hlen]
    omega
  have hs1 : MultiBuffer.shift ⟨[line ++ crlf ++ rest]⟩ line.length
      = some (line, ⟨[crlf ++ rest]⟩) := by
    have := shift_single (line ++ crlf ++ rest) line.length hchne
      (by rw [hlen]; omega)
    rw [this, hassoc, List.take_left, List.drop_left]
    have : crlf ++ rest ≠ [] := by simp [crlf]
    rw [singleMB_of_ne _ this]
  have hs2 : MultiBuffer.shift ⟨[crlf ++ rest]⟩ 2 = some (crlf, singleMB rest) := by
    have hne : crlf ++ rest ≠ [] := by simp [crlf]
    have := shift_single (crlf ++ rest) 2 hne (by simp [crlf])
    rw [this]
    have h2 : (2 : Nat) = crlf.length := rfl
    rw [h2, List.take_left, List.drop_left]
  have hm1 : ¬ ((line.length : Int) = -1) := by omega
  have htn : ((line.length : Int)).toNat = line.length := by omega
  have hstab : processLoopF (⟨[line ++ crlf ++ rest]⟩ : MultiBuffer).length
      (singleMB rest) rem = processLoop (singleMB rest) rem := by
    apply processLoop_eq_processLoopF
    rw [singleMB_length, length_single, hlen]
    omega
  generalize hres : tokLoop rest rem = res
  have hres2 : processLoop (singleMB rest) rem = res := hres
  unfold tokLoop
  rw [singleMB_of_ne _ hchne]
  unfold processLoop
  simp only [processLoopF, if_neg h0, hidx, if_neg hm1, htn, hs1, hs2,
    if_neg h36, hstab, hres2]

theorem tokLoop_bulk (p rest : List Nat) (rem : Option Int) (hp : p ≠ []) :
    tokLoop ((36 :: natDigits p.length) ++ crlf ++ p ++ crlf ++ rest) rem
      = match tokLoop rest rem with
        | none => none
        | some (toks, mb3, rem3) => some (Tok.bufT p :: toks, mb3, rem3) := by
  have hL : 1 ≤ p.length := by
    cases p with
    | nil => exact absurd rfl hp
    | cons a l => simp
  have h13 : 13 ∉ (36 :: natDigits p.length) := by
    intro h
    rcases List.mem_cons.mp h with h | h
    · omega
    · exact natDigits_not_cr _ h
  have hchne : (36 :: natDigits p.length) ++ crlf ++ p ++ crlf ++ rest ≠ [] := by
    simp
  have hlen : ((36 :: natDigits p.length) ++ crlf ++ p ++ crlf ++ rest).length
      = (natDigits p.length).length + 1 + 2 + p.length + 2 + rest.length := by
    simp [crlf]
    omega
  have hidx : MultiBuffer.indexOf
      ⟨[(36 :: natDigits p.length) ++ crlf ++ p ++ crlf ++ rest]⟩ crlf
      = (((natDigits p.length).length + 1 : Nat) : Int) := by
    apply indexOf_single_some
    have : (36 :: natDigits p.length) ++ crlf ++ p ++ crlf ++ rest
        = (36 :: natDigits p.length) ++ (crlf ++ (p ++ (crlf ++ rest))) := by
      simp [List.append_assoc]
    rw [this]
    have := bufSearch_crlf_at (36 :: natDigits p.length) (p ++ (crlf ++ rest)) h13
    simpa using this
  have h0 : (⟨[(36 :: natDigits p.length) ++ crlf ++ p ++ crlf ++ rest]⟩
      : MultiBuffer).length ≠ 0 := by
    rw [length_single, hlen]
    omega
  have hs1 : MultiBuffer.shift
      ⟨[(36 :: natDigits p.length) ++ crlf ++ p ++ crlf ++ rest]⟩
      ((natDigits p.length).length + 1)
      = some (36 :: natDigits p.length, ⟨[crlf ++ (p ++ (crlf ++ rest))]⟩) := by
    have hr := shift_single _ ((natDigits p.length).length + 1) hchne
      (by rw [hlen]; omega)
    rw [hr]
    have hsplit : (36 :: natDigits p.length) ++ crlf ++ p ++ crlf ++ rest
        = (36 :: natDigits p.length) ++ (crlf ++ (p ++ (crlf ++ rest))) := by
      simp [List.append_assoc]
    have hlc : (36 :: natDigits p.length).length = (natDigits p.length).length + 1 := by
      simp
    rw [hsplit, ← hlc, List.take_left, List.drop_left]
    have : crlf ++ (p ++ (crlf ++ rest)) ≠ [] := by simp [crlf]
    rw [singleMB_of_ne _ this]
  have hs2 : MultiBuffer.shift ⟨[crlf ++ (p ++ (crlf ++ rest))]⟩ 2
      = some (crlf, ⟨[p ++ (crlf ++ rest)]⟩) := by
    have hne : crlf ++ (p ++ (crlf ++ rest)) ≠ [] := by simp [crlf]
    have := shift_single _ 2 hne (by simp [crlf])
    rw [this]
    have h2 : (2 : Nat) = crlf.length := rfl
    rw [h2, List.take_left, List.drop_left]
    have : p ++ (crlf ++ rest) ≠ [] := by
      simp only [ne_eq, List.append_eq_nil, not_and_or]
      exact Or.inl hp
    rw [singleMB_of_ne _ this]
  have hdrop : List.drop 1 (36 :: natDigits p.length) = natDigits p.length := by simp
  have hlossy : utf8Lossy (natDigits p.length) = natDigits p.length :=
    utf8Lossy_ascii _ (natDigits_ascii _)
  have hparse : jsParseInt (natDigits p.length) = some (p.length : Int) :=
    jsParseInt_natDigits _
  have hneg : ¬ (some ((p.length : Nat) : Int) = some (-1 : Int)) := by
    simp only [Option.some.injEq]
    omega
  have hz : ¬ (some ((p.length : Nat) : Int) = some (0 : Int)) := by
    simp only [Option.some.injEq]
    omega
  have hcond : lenCond (some ((p.length : Nat) : Int))
      (⟨[p ++ (crlf ++ rest)]⟩ : MultiBuffer).length = true := by
    have hlen2 : (⟨[p ++ (crlf ++ rest)]⟩ : MultiBuffer).length
        = p.length + (2 + rest.length) := by
      rw [length_single]
      simp [crlf]
      omega
    rw [hlen2]
    simp only [lenCond, decide_eq_true_eq]
    push_cast
    omega
  have hl2n : lenToNat (some ((p.length : Nat) : Int)) = p.length := by
    simp [lenToNat]
  have hs3 : MultiBuffer.shift ⟨[p ++ (crlf ++ rest)]⟩ p.length
      = some (p, ⟨[crlf ++ rest]⟩) := by
    have hne : p ++ (crlf ++ rest) ≠ [] := by
      simp only [ne_eq, List.append_eq_nil, not_and_or]
      exact Or.inl hp
    have := shift_single _ p.length hne (by simp)
    rw [this, List.take_left, List.drop_left]
    have : crlf ++ rest ≠ [] := by simp [crlf]
    rw [singleMB_of_ne _ this]
  have hs4 : MultiBuffer.shift ⟨[crlf ++ rest]⟩ 2 = some (crlf, singleMB rest) := by
    have hne : crlf ++ rest ≠ [] := by simp [crlf]
    have := shift_single _ 2 hne (by simp [crlf])
    rw [this]
    have h2 : (2 : Nat) = crlf.length := rfl
    rw [h2, List.take_left, List.drop_left]
  have hstab : processLoopF
      (⟨[(36 :: natDigits p.length) ++ crlf ++ p ++ crlf ++ rest]⟩ : MultiBuffer).length
      (singleMB rest) rem = processLoop (singleMB rest) rem := by
    apply processLoop_eq_processLoopF
    rw [singleMB_length, length_single, hlen]
    omega
  have hm1 : ¬ ((((natDigits p.length).length + 1 : Nat) : Int) = -1) := by omega
  have htn : ((((natDigits p.length).length + 1 : Nat) : Int)).toNat
      = (natDigits p.length).length + 1 := by omega
  have h36 : (36 :: natDigits p.length).head? = some 36 := rfl
  generalize hres : tokLoop rest rem = res
  have hres2 : processLoop (singleMB rest) rem = res := hres
  unfold tokLoop
  rw [singleMB_of_ne _ hchne]
  unfold processLoop
  rw [processLoopF_step]
  simp only [if_neg h0, hidx, if_neg hm1, htn, hs1, hs2, h36,
    if_pos rfl, hdrop, hlossy, hparse, if_neg hneg, if_neg hz, hcond, if_true,
    hl2n, hs3, hs4, hstab, hres2]

/-! ### Feeding a single chunk -/

theorem processReadBuffers_single (chunk : List Nat) (hch : chunk ≠ []) :
    processReadBuffers ⟨[chunk]⟩ (some (-1)) = tokLoop chunk (some (-1)) := by
  unfold processReadBuffers tokLoop
  rw [singleMB_of_ne _ hch]
  norm_num

theorem fedTokens_single (chunk : List Nat) :
    fedTokens [chunk]
      = match tokLoop chunk (some (-1)) with
        | none => none
        | some (toks, _, _) => some toks := by
  by_cases hch : chunk = []
  · subst hch
    rfl
  · show (feedChunks [chunk]).map Prod.fst = _
    unfold feedChunks
    simp only [List.foldl_cons, List.foldl_nil]
    unfold parserWrite
    have hadd : parserInit.readBuffer.add chunk = ⟨[chunk]⟩ := rfl
    have hrem : parserInit.rem = some (-1) := rfl
    rw [hadd, hrem, processReadBuffers_single chunk hch]
    rcases tokLoop chunk (some (-1)) with _ | ⟨toks, mb, rem⟩ <;> simp

/-! ### getResponse equations, consumption and fuel stability -/

theorem getResponse_cons (t : Tok) (ts : List Tok) :
    getResponse (t :: ts) =
      match t with
      | .nullT => .val .nil ts
      | .bufT b => .val (.str (utf8Lossy b)) ts
      | .strT s =>
        if s.head? = some 42 then
          if jsParseInt (s.drop 1) = some (-1) then .val .nil ts
          else arrLoop (loopCount (jsParseInt (s.drop 1))) [] ts
        else if s.head? = some 58 then .val (.num (jsParseInt (s.drop 1))) ts
        else if s.head? = some 43 then .val (.str (s.drop 1)) ts
        else if s.head? = some 45 then .val (.err (s.drop 1)) ts
        else .thrown (unknownTokenMsg s) := rfl

theorem getResponse_nil : getResponse [] = .suspend := rfl

theorem arrLoop_zero (acc : List RValue) (ts : List Tok) :
    arrLoop 0 acc ts = .val (.arr acc) ts := rfl

theorem getResponse_consume_all (fuel : Nat) :
    (∀ toks v rest, getResponseF fuel toks = GR.val v rest → rest.length < toks.length)
    ∧ (∀ k ts acc v rest, arrLoopG (getResponseF fuel) k acc ts = GR.val v rest →
        rest.length ≤ ts.length) := by
  induction fuel with
  | zero =>
    constructor
    · intro toks v rest h
      simp [getResponseF] at h
    · intro k
      induction k with
      | zero =>
        intro ts acc v rest h
        unfold arrLoopG at h
        cases h
        simp
      | succ k ihk =>
        intro ts acc v rest h
        unfold arrLoopG at h
        simp [getResponseF] at h
  | succ fuel ih =>
    obtain ⟨ihC, ihA⟩ := ih
    have hC : ∀ toks v rest, getResponseF (fuel + 1) toks = GR.val v rest →
        rest.length < toks.length := by
      intro toks v rest h
      match toks with
      | [] => simp [getResponseF] at h
      | t :: ts =>
        match t with
        | .nullT =>
          cases h
          simp
        | .bufT b =>
          cases h
          simp
        | .strT s =>
          simp only [getResponseF] at h
          by_cases h42 : s.head? = some 42
          · rw [if_pos h42] at h
            by_cases hm : jsParseInt (s.drop 1) = some (-1)
            · rw [if_pos hm] at h
              cases h
              simp
            · rw [if_neg hm] at h
              have := ihA _ _ _ _ _ h
              simp only [List.length_cons]
              omega
          · rw [if_neg h42] at h
            by_cases h58 : s.head? = some 58
            · rw [if_pos h58] at h
              cases h
              simp
            · rw [if_neg h58] at h
              by_cases h43 : s.head? = some 43
              · rw [if_pos h43] at h
                cases h
                simp
              · rw [if_neg h43] at h
                by_cases h45 : s.head? = some 45
                · rw [if_pos h45] at h
                  cases h
                  simp
                · rw [if_neg h45] at h
                  cases h
    refine ⟨hC, ?_⟩
    intro k
    induction k with
    | zero =>
      intro ts acc v rest h
      unfold arrLoopG at h
      cases h
      simp
    | succ k ihk =>
      intro ts acc v rest h
      unfold arrLoopG at h
      rcases hg : getResponseF (fuel + 1) ts with _ | m | ⟨v2, r⟩
      · rw [hg] at h
        cases h
      · rw [hg] at h
        cases h
      · rw [hg] at h
        have h2 : (if v2.isError = true then GR.val v2 r
            else arrLoopG (getResponseF (fuel + 1)) k (acc ++ [v2]) r)
            = GR.val v rest := h
        have hlt := hC ts v2 r hg
        by_cases he : v2.isError
        · rw [if_pos he] at h2
          cases h2
          omega
        · rw [if_neg he] at h2
          have := ihk r (acc ++ [v2]) v rest h2
          omega

theorem getResponseF_stable (f : Nat) :
    (∀ toks g, toks.length < f → toks.length < g →
        getResponseF f toks = getResponseF g toks)
    ∧ (∀ k ts acc g, ts.length < f → ts.length < g →
        arrLoopG (getResponseF f) k acc ts = arrLoopG (getResponseF g) k acc ts) := by
  induction f using Nat.strong_induction_on with
  | _ f ih =>
    have hG : ∀ toks g, toks.length < f → toks.length < g →
        getResponseF f toks = getResponseF g toks := by
      intro toks g hf hg
      obtain ⟨f', rfl⟩ : ∃ f'', f = f'' + 1 := ⟨f - 1, by omega⟩
      obtain ⟨g', rfl⟩ : ∃ g'', g = g'' + 1 := ⟨g - 1, by omega⟩
      rcases toks with _ | ⟨t, ts⟩
      · rfl
      · rcases t with _ | ⟨s⟩ | ⟨b⟩
        · rfl
        · simp only [getResponseF]
          by_cases h42 : s.head? = some 42
          · rw [if_pos h42, if_pos h42]
            by_cases hm : jsParseInt (s.drop 1) = some (-1)
            · rw [if_pos hm, if_pos hm]
            · rw [if_neg hm, if_neg hm]
              have hfts : ts.length < f' := by
                simp only [List.length_cons] at hf
                omega
              have hgts : ts.length < g' := by
                simp only [List.length_cons] at hg
                omega
              exact (ih f' (by omega)).2 _ ts [] g' hfts hgts
          · rw [if_neg h42, if_neg h42]
        · rfl
    refine ⟨hG, ?_⟩
    intro k
    induction k with
    | zero => intro ts acc g _ _; rfl
    | succ k ihk =>
      intro ts acc g hf hg
      unfold arrLoopG
      have hgg : getResponseF g ts = getResponseF f ts := (hG ts g hf hg).symm
      rw [hgg]
      rcases hr : getResponseF f ts with _ | m | ⟨v, r⟩
      · rfl
      · rfl
      · show (if v.isError = true then GR.val v r
              else arrLoopG (getResponseF f) k (acc ++ [v]) r)
            = (if v.isError = true then GR.val v r
              else arrLoopG (getResponseF g) k (acc ++ [v]) r)
        have hlt : r.length < ts.length := (getResponse_consume_all f).1 ts v r hr
        by_cases he : v.isError
        · rw [if_pos he, if_pos he]
        · rw [if_neg he, if_neg he]
          exact ihk r (acc ++ [v]) g (by omega) (by omega)

theorem getResponseF_eq_getResponse (f : Nat) (toks : List Tok)
    (h : toks.length < f) : getResponseF f toks = getResponse toks :=
  (getResponseF_stable f).1 toks (toks.length + 1) h (by omega)

theorem getResponse_consume (toks : List Tok) (v : RValue) (rest : List Tok)
    (h : getResponse toks = GR.val v rest) : rest.length < toks.length :=
  (getResponse_consume_all (toks.length + 1)).1 toks v rest h

theorem arrLoop_succ (k : Nat) (acc : List RValue) (ts : List Tok) :
    arrLoop (k + 1) acc ts
      = match getResponse ts with
        | .suspend => .suspend
        | .thrown m => .thrown m
        | .val v rest => if v.isError then .val v rest
                         else arrLoop k (acc ++ [v]) rest := by
  unfold arrLoop arrLoopF
  conv_lhs => rw [arrLoopG]
  have hget : getResponseF (ts.length + 1) ts = getResponse ts := rfl
  rw [hget]
  rcases hr : getResponse ts with _ | m | ⟨v, r⟩
  · rfl
  · rfl
  · show (if v.isError = true then GR.val v r
          else arrLoopG (getResponseF (ts.length + 1)) k (acc ++ [v]) r)
        = (if v.isError = true then GR.val v r
          else arrLoopG (getResponseF (r.length + 1)) k (acc ++ [v]) r)
    have hlt : r.length < ts.length := getResponse_consume ts v r hr
    by_cases he : v.isError
    · rw [if_pos he, if_pos he]
    · rw [if_neg he, if_neg he]
      exact (getResponseF_stable (ts.length + 1)).2 k r (acc ++ [v])
        (r.length + 1) (by omega) (by omega)

/-! ### Per-token getResponse equations -/

theorem getResponse_nullT (ts : List Tok) :
    getResponse (Tok.nullT :: ts) = .val .nil ts := rfl

theorem getResponse_bufT (b : List Nat) (ts : List Tok) :
    getResponse (Tok.bufT b :: ts) = .val (.str (utf8Lossy b)) ts := rfl

theorem getResponse_strT (s : List Nat) (ts : List Tok) :
    getResponse (Tok.strT s :: ts)
      = (if s.head? = some 42 then
          if jsParseInt (s.drop 1) = some (-1) then .val .nil ts
          else arrLoop (loopCount (jsParseInt (s.drop 1))) [] ts
        else if s.head? = some 58 then .val (.num (jsParseInt (s.drop 1))) ts
        else if s.head? = some 43 then .val (.str (s.drop 1)) ts
        else if s.head? = some 45 then .val (.err (s.drop 1)) ts
        else .thrown (unknownTokenMsg s)) := rfl

/-! ### Claim theorems: rendezvous, FIFO, server errors, transport errors -/

/-- C9: rendezvous invariant of the decoder.  In every state reachable from
the constructor state through any sequence of `_write` token deliveries,
`_getNextToken` calls and `dispose`, the pending-receiver slot
(`_tokenResolver`) and the token FIFO (`_pendingTokens`) are mutually
exclusive; and whenever a receiver is pending, a further `_getNextToken`
call is refused with the `already waiting for token` error and leaves the
state unchanged, so at most one receiver is ever pending. -/
theorem c9_rendezvous_invariant :
    ∀ evs : List PEvent,
      rendezvousInv (applyEvents evs) = true
      ∧ ((applyEvents evs).tokenResolver = true →
          getNextToken (applyEvents evs)
            = (NextResult.errorAlready, applyEvents evs)) := by
  have hpush : ∀ (s : RState) (t : Tok), rendezvousInv (pushToken s t) = true := by
    intro s t
    unfold pushToken rendezvousInv
    by_cases hr : s.tokenResolver
    · simp [hr]
    · simp [hr]
  have hwrite : ∀ (toks : List Tok) (s : RState), rendezvousInv s = true →
      rendezvousInv (toks.foldl pushToken s) = true := by
    intro toks
    induction toks with
    | nil => intro s hs; exact hs
    | cons t ts ih => intro s _; exact ih _ (hpush s t)
  have hstep : ∀ (s : RState) (ev : PEvent), rendezvousInv s = true →
      rendezvousInv (applyEvent s ev) = true := by
    intro s ev hs
    cases ev with
    | write toks => exact hwrite toks s hs
    | getNext =>
      unfold applyEvent getNextToken
      rcases hp : s.pendingTokens with _ | ⟨t, rest⟩
      · by_cases hr : s.tokenResolver
        · simp only [if_pos hr]
          exact hs
        · simp only [if_neg hr, rendezvousInv]
          simp [hp]
      · unfold rendezvousInv at hs ⊢
        rw [hp] at hs
        rcases hres : s.tokenResolver with _ | _
        · simp [hres]
        · rw [hres] at hs
          simp at hs
    | dispose => rfl
  have hrefuse : ∀ s : RState, rendezvousInv s = true → s.tokenResolver = true →
      getNextToken s = (NextResult.errorAlready, s) := by
    intro s hinv hr
    have hp : s.pendingTokens = [] := by
      unfold rendezvousInv at hinv
      rw [hr] at hinv
      simpa [List.isEmpty_iff] using hinv
    unfold getNextToken
    rw [hp]
    simp [hr]
  intro evs
  have hfold : ∀ (l : List PEvent) (s : RState), rendezvousInv s = true →
      rendezvousInv (List.foldl applyEvent s l) = true := by
    intro l
    induction l with
    | nil => intro s hs; exact hs
    | cons e es ih => intro s hs; exact ih _ (hstep s e hs)
  have hinv : rendezvousInv (applyEvents evs) = true := hfold evs ⟨[], false⟩ rfl
  exact ⟨hinv, fun hr => hrefuse _ hinv hr⟩

/-- C9 witness: after a single `_getNextToken` the resolver is pending, and
the theorem's refusal clause applies: a second call errors and preserves
the state. -/
theorem c9_rendezvous_invariant_witness :
    (applyEvents [PEvent.getNext]).tokenResolver = true
    ∧ getNextToken (applyEvents [PEvent.getNext])
        = (NextResult.errorAlready, applyEvents [PEvent.getNext]) :=
  ⟨by decide, (c9_rendezvous_invariant [PEvent.getNext]).2 (by decide)⟩

/-- C3: strict FIFO correlation.  If the inbound token stream decodes to at
least as many replies as there are queued commands, the pump writes each
command's bytes in submission order (the wire is exactly the concatenation
of the encodings, no reordering or coalescing), and the i-th command's
completion slot is settled with the i-th decoded reply (resolve for a
value, reject for a `ServerError`), draining the queue. -/
theorem c3_fifo_correlation :
    ∀ (qs : List QCmd) (toks : List Tok) (vs : List RValue) (rest : List Tok),
      decodeVals qs.length toks = some (vs, rest) →
      runQueueLoop qs toks
        = ⟨(qs.map encodeCmd).flatten, vs.map completionOf, [], rest, .drained⟩ := by
  intro qs
  induction qs with
  | nil =>
    intro toks vs rest h
    unfold decodeVals at h
    cases h
    rfl
  | cons q qs ih =>
    intro toks vs rest h
    have hlen : (q :: qs).length = qs.length + 1 := rfl
    rw [hlen] at h
    unfold decodeVals at h
    rcases hg : getResponse toks with _ | m | ⟨v, r⟩
    · rw [hg] at h; cases h
    · rw [hg] at h; cases h
    · rw [hg] at h
      have h1 : (match decodeVals qs.length r with
                 | some (vs2, r2) => some (v :: vs2, r2)
                 | none => none) = some (vs, rest) := h
      rcases hd : decodeVals qs.length r with _ | ⟨vs2, rest2⟩
      · rw [hd] at h1; cases h1
      · rw [hd] at h1
        have h2 : some (v :: vs2, rest2) = some (vs, rest) := h1
        have h3 : vs = v :: vs2 ∧ rest = rest2 := by
          injection h2 with h4
          injection h4 with h5 h6
          exact ⟨h5.symm, h6.symm⟩
        obtain ⟨rfl, rfl⟩ := h3
        have hrec := ih r vs2 rest hd
        unfold runQueueLoop
        rw [hg]
        show (⟨encodeCmd q ++ (runQueueLoop qs r).wire,
              (if v.isError = true then Completion.rejected v.errMsg
               else Completion.resolved v) :: (runQueueLoop qs r).completions,
              (runQueueLoop qs r).leftover, (runQueueLoop qs r).restToks,
              (runQueueLoop qs r).exit⟩ : PumpResult)
            = ⟨(List.map encodeCmd (q :: qs)).flatten,
               List.map completionOf (v :: vs2), [], rest, .drained⟩
        rw [hrec]
        simp [completionOf]

/-- C3 witness: two inline commands against the reply stream `+A CRLF :2
CRLF` are written in order and completed with `A` and `2`, in order. -/
theorem c3_fifo_correlation_witness :
    decodeVals 2 [Tok.strT [43, 65], Tok.strT [58, 50]]
      = some ([RValue.str [65], RValue.num (some 2)], [])
    ∧ runQueueLoop
        [(⟨[RedisType.str [80]], true⟩ : QCmd), (⟨[RedisType.str [81]], true⟩ : QCmd)]
        [Tok.strT [43, 65], Tok.strT [58, 50]]
      = ⟨(List.map encodeCmd
            [(⟨[RedisType.str [80]], true⟩ : QCmd), (⟨[RedisType.str [81]], true⟩ : QCmd)]).flatten,
         List.map completionOf [RValue.str [65], RValue.num (some 2)], [], [],
         .drained⟩ :=
  ⟨by decide, c3_fifo_correlation _ _ _ _ (by decide)⟩

/-- C7: server errors are non-fatal and verbatim.  An error frame
`-text CRLF` (ASCII text, no CR) tokenizes to the single line token
`-text`; `getResponse` turns it into an `Error` whose message is exactly
`text` — nothing, including the leading error-code word, is stripped — and
the pump rejects the first command's slot with that message and then writes
and completes the next queued command normally with its own reply. -/
theorem c7_server_error_nonfatal (text : List Nat) (q1 q2 : QCmd)
    (restT : List Tok) (v : RValue) (r2 : List Tok)
    (hascii : ∀ b ∈ text, b < 128) (hcr : 13 ∉ text)
    (hv : getResponse restT = .val v r2) (hverr : v.isError = false) :
    fedTokens [(45 :: text) ++ crlf] = some [Tok.strT (45 :: text)]
    ∧ getResponse (Tok.strT (45 :: text) :: restT) = .val (.err text) restT
    ∧ runQueueLoop [q1, q2] (Tok.strT (45 :: text) :: restT)
      = ⟨encodeCmd q1 ++ (encodeCmd q2 ++ []),
         [Completion.rejected text, Completion.resolved v], [], r2, .drained⟩ := by
  have hline : 13 ∉ (45 :: text) := by
    intro h
    rcases List.mem_cons.mp h with h | h
    · omega
    · exact hcr h
  have h36 : (45 :: text).head? ≠ some 36 := by simp
  have hlossy : utf8Lossy (45 :: text) = 45 :: text := by
    apply utf8Lossy_ascii
    intro b hb
    rcases List.mem_cons.mp hb with h | h
    · omega
    · exact hascii b h
  have h2 : getResponse (Tok.strT (45 :: text) :: restT) = .val (.err text) restT := by
    rw [getResponse_strT]
    have e42 : ¬ ((45 :: text).head? = some 42) := by simp
    have e58 : ¬ ((45 :: text).head? = some 58) := by simp
    have e43 : ¬ ((45 :: text).head? = some 43) := by simp
    have e45 : (45 :: text).head? = some 45 := rfl
    rw [if_neg e42, if_neg e58, if_neg e43, if_pos e45]
    rfl
  refine ⟨?_, h2, ?_⟩
  · rw [fedTokens_single]
    have hsplit : (45 :: text) ++ crlf = (45 :: text) ++ crlf ++ [] := by simp
    rw [hsplit, tokLoop_line _ _ _ hline h36, tokLoop_nil, hlossy]
  · unfold runQueueLoop
    rw [h2]
    show (⟨encodeCmd q1 ++ (runQueueLoop [q2] restT).wire,
          (if (RValue.err text).isError = true
           then Completion.rejected (RValue.err text).errMsg
           else Completion.resolved (RValue.err text))
            :: (runQueueLoop [q2] restT).completions,
          (runQueueLoop [q2] restT).leftover, (runQueueLoop [q2] restT).restToks,
          (runQueueLoop [q2] restT).exit⟩ : PumpResult) = _
    have hq2 : runQueueLoop [q2] restT
        = ⟨encodeCmd q2 ++ [], [Completion.resolved v], [], r2, .drained⟩ := by
      unfold runQueueLoop
      rw [hv]
      show (⟨encodeCmd q2 ++ (runQueueLoop [] r2).wire,
            (if v.isError = true then Completion.rejected v.errMsg
             else Completion.resolved v) :: (runQueueLoop [] r2).completions,
            (runQueueLoop [] r2).leftover, (runQueueLoop [] r2).restToks,
            (runQueueLoop [] r2).exit⟩ : PumpResult) = _
      rw [hverr]
      rfl
    rw [hq2]
    rfl

/-- C7 witness: the frame `-ERR x CRLF` followed by a `+OK` reply: the first
command is rejected with exactly `ERR x`, the second resolves with `OK`. -/
theorem c7_server_error_nonfatal_witness :
    fedTokens [(45 :: [69, 82, 82, 32, 120]) ++ crlf]
      = some [Tok.strT (45 :: [69, 82, 82, 32, 120])]
    ∧ getResponse (Tok.strT (45 :: [69, 82, 82, 32, 120]) :: [Tok.strT [43, 79, 75]])
      = .val (.err [69, 82, 82, 32, 120]) [Tok.strT [43, 79, 75]]
    ∧ runQueueLoop [(⟨[RedisType.str [80]], true⟩ : QCmd), (⟨[RedisType.str [81]], true⟩ : QCmd)]
        (Tok.strT (45 :: [69, 82, 82, 32, 120]) :: [Tok.strT [43, 79, 75]])
      = ⟨encodeCmd (⟨[RedisType.str [80]], true⟩ : QCmd)
           ++ (encodeCmd (⟨[RedisType.str [81]], true⟩ : QCmd) ++ []),
         [Completion.rejected [69, 82, 82, 32, 120], Completion.resolved (.str [79, 75])],
         [], [], .drained⟩ :=
  c7_server_error_nonfatal [69, 82, 82, 32, 120] _ _ _ _ _
    (by decide) (by decide) (by decide) (by decide)

/-- C6 (amended): transport and framing errors are not fanned out.  When
`getResponse` throws (for example on a framing violation: a token whose
first character is none of the five type markers), the pump aborts with the
exception: the in-flight command's slot is never settled, no queued command
is settled either (they stay queued), and `_running` remains set, so every
later submission is accepted onto the queue but never runs — nothing is
rejected with a transport error and nothing is refused.  When the stream
ends (no further token ever arrives) the pump suspends forever with the
same non-completion. -/
theorem c6_transport_errors_not_fanned_out :
    (∀ (q : QCmd) (qs : List QCmd) (toks : List Tok) (m : List Nat),
        getResponse toks = .thrown m →
        runQueueLoop (q :: qs) toks = ⟨encodeCmd q, [], qs, toks, .thrown m⟩)
    ∧ (∀ (q : QCmd) (qs : List QCmd),
        runQueueLoop (q :: qs) [] = ⟨encodeCmd q, [], qs, [], .suspended⟩)
    ∧ (∀ (e : Engine) (q : QCmd) (toks : List Tok),
        e.running = true →
        serializeCommand e q toks = (⟨e.queue ++ [q], true⟩, none))
    ∧ (∀ (s : List Nat) (ts : List Tok),
        s.head? ≠ some 42 → s.head? ≠ some 58 → s.head? ≠ some 43 →
        s.head? ≠ some 45 →
        getResponse (Tok.strT s :: ts) = .thrown (unknownTokenMsg s)) := by
  refine ⟨?_, ?_, ?_, ?_⟩
  · intro q qs toks m hm
    unfold runQueueLoop
    rw [hm]
  · intro q qs
    rfl
  · intro e q toks he
    unfold serializeCommand
    rw [if_pos he]
  · intro s ts h42 h58 h43 h45
    rw [getResponse_strT, if_neg h42, if_neg h58, if_neg h43, if_neg h45]

/-- C6 witness: a `?x` framing violation with two commands in flight or
queued settles neither slot, leaves the second command queued and the pump
stuck; a later submission is appended, not refused. -/
theorem c6_transport_errors_not_fanned_out_witness :
    runQueueLoop [(⟨[RedisType.str [71]], true⟩ : QCmd), (⟨[RedisType.str [72]], true⟩ : QCmd)]
        [Tok.strT [63, 120]]
      = ⟨encodeCmd (⟨[RedisType.str [71]], true⟩ : QCmd), [],
         [(⟨[RedisType.str [72]], true⟩ : QCmd)], [Tok.strT [63, 120]],
         .thrown (unknownTokenMsg [63, 120])⟩
    ∧ serializeCommand ⟨[(⟨[RedisType.str [72]], true⟩ : QCmd)], true⟩
        (⟨[RedisType.str [73]], true⟩ : QCmd) []
      = (⟨[(⟨[RedisType.str [72]], true⟩ : QCmd), (⟨[RedisType.str [73]], true⟩ : QCmd)], true⟩, none) :=
  ⟨(c6_transport_errors_not_fanned_out).1 _ _ _ _ (by decide),
   (c6_transport_errors_not_fanned_out).2.2.1 _ _ _ (by decide)⟩

/-! ### Error promotion out of arrays -/

theorem arrLoop_first_error :
    ∀ (j : Nat) (ts : List Tok) (acc vs : List RValue) (m : List Nat)
      (rest : List Tok) (k : Nat),
      decodeVals j ts = some (vs, Tok.strT (45 :: m) :: rest) →
      (∀ v ∈ vs, v.isError = false) →
      j < k →
      arrLoop k acc ts = .val (.err m) rest := by
  intro j
  induction j with
  | zero =>
    intro ts acc vs m rest k h hv hk
    unfold decodeVals at h
    have h2 : ts = Tok.strT (45 :: m) :: rest := by
      have h5 := h
      simp only [Option.some.injEq, Prod.mk.injEq] at h5
      exact h5.2
    subst h2
    obtain ⟨k2, rfl⟩ : ∃ k2, k = k2 + 1 := ⟨k - 1, by omega⟩
    rw [arrLoop_succ, getResponse_strT]
    have e42 : ¬ ((45 :: m).head? = some 42) := by simp
    have e58 : ¬ ((45 :: m).head? = some 58) := by simp
    have e43 : ¬ ((45 :: m).head? = some 43) := by simp
    have e45 : (45 :: m).head? = some 45 := rfl
    rw [if_neg e42, if_neg e58, if_neg e43, if_pos e45]
    rfl
  | succ j ihj =>
    intro ts acc vs m rest k h hv hk
    unfold decodeVals at h
    rcases hg : getResponse ts with _ | m2 | ⟨v, r⟩
    · rw [hg] at h; cases h
    · rw [hg] at h; cases h
    · rw [hg] at h
      have h1 : (match decodeVals j r with
                 | some (vs2, r2) => some (v :: vs2, r2)
                 | none => none) = some (vs, Tok.strT (45 :: m) :: rest) := h
      rcases hd : decodeVals j r with _ | ⟨vs2, rest2⟩
      · rw [hd] at h1; cases h1
      · rw [hd] at h1
        have h2 : some (v :: vs2, rest2) = some (vs, Tok.strT (45 :: m) :: rest) := h1
        have h3 : vs = v :: vs2 ∧ rest2 = Tok.strT (45 :: m) :: rest := by
          injection h2 with h4
          injection h4 with h5 h6
          exact ⟨h5.symm, h6⟩
        obtain ⟨rfl, rfl⟩ := h3
        obtain ⟨k2, rfl⟩ : ∃ k2, k = k2 + 1 := ⟨k - 1, by omega⟩
        rw [arrLoop_succ, hg]
        have hvf : v.isError = false := hv v (List.mem_cons_self _ _)
        have hvf2 : ¬ (v.isError = true) := by
          rw [hvf]
          simp
        show (if v.isError = true then GR.val v r else arrLoop k2 (acc ++ [v]) r)
            = GR.val (RValue.err m) rest
        rw [if_neg hvf2]
        exact ihj r (acc ++ [v]) vs2 m rest k2 hd
          (fun x hx => hv x (List.mem_cons_of_mem _ hx)) (by omega)

/-- C2 (amended): a nested error element IS promoted.  For an array header
`*n` whose first `j` elements decode to non-error values and whose
element `j + 1` is an error frame `-m`, `getResponse` stops at that
element and returns the `ServerError` itself as the whole top-level
response; the elements before it are consumed, and the tokens after the
error element are left in the stream (they are NOT decoded into this
array — they will be consumed as later replies, desynchronizing the
positional correlation). -/
theorem c2_nested_error_promoted (n j : Nat) (ts rest : List Tok)
    (vs : List RValue) (m : List Nat)
    (hdec : decodeVals j ts = some (vs, Tok.strT (45 :: m) :: rest))
    (hne : ∀ v ∈ vs, v.isError = false)
    (hjn : j < n) :
    getResponse (Tok.strT (42 :: natDigits n) :: ts) = .val (.err m) rest := by
  rw [getResponse_strT]
  have h42 : (42 :: natDigits n).head? = some 42 := rfl
  rw [if_pos h42]
  have hdrop : (42 :: natDigits n).drop 1 = natDigits n := rfl
  rw [hdrop, jsParseInt_natDigits]
  have hm1 : ¬ (some (n : Int) = some (-1 : Int)) := by
    simp only [Option.some.injEq]
    omega
  rw [if_neg hm1]
  have hlc : loopCount (some (n : Int)) = n := by simp [loopCount]
  rw [hlc]
  exact arrLoop_first_error j ts [] vs m rest n hdec hne hjn

/-- C2 witness: for `*2` followed by `+a`, `-E`, `+b`, the decode returns
the error `E` itself, with the `+b` token left unconsumed. -/
theorem c2_nested_error_promoted_witness :
    getResponse (Tok.strT (42 :: natDigits 2)
        :: [Tok.strT [43, 97], Tok.strT [45, 69], Tok.strT [43, 98]])
      = .val (.err [69]) [Tok.strT [43, 98]] :=
  c2_nested_error_promoted 2 1 _ _ [RValue.str [97]] [69]
    (by decide) (by decide) (by decide)

/-- C4 (amended): bulk payload bytes are delivered intact by the tokenizer
but converted to text by `getResponse`.  For every declared length
`L = |p| ≥ 1$, the frame `$L CRLF p CRLF` fed as one chunk tokenizes to
exactly the payload bytes `p`; `getResponse` then returns
`toString('utf-8')` of those bytes — a decoded string, not raw bytes —
which coincides with `p` itself exactly when the payload is ASCII (and
more generally valid UTF-8), and is lossy otherwise. -/
theorem c4_bulk_token_fidelity (p : List Nat) (hp : p ≠ []) :
    fedTokens [(36 :: natDigits p.length) ++ crlf ++ p ++ crlf] = some [Tok.bufT p]
    ∧ getResponse [Tok.bufT p] = .val (.str (utf8Lossy p)) []
    ∧ ((∀ b ∈ p, b < 128) → getResponse [Tok.bufT p] = .val (.str p) []) := by
  refine ⟨?_, getResponse_bufT p [], ?_⟩
  · rw [fedTokens_single]
    have hsplit : (36 :: natDigits p.length) ++ crlf ++ p ++ crlf
        = (36 :: natDigits p.length) ++ crlf ++ p ++ crlf ++ [] := by simp
    rw [hsplit, tokLoop_bulk p [] _ hp, tokLoop_nil]
  · intro h
    rw [getResponse_bufT, utf8Lossy_ascii p h]

/-- C4 witness: the one-byte payload `a`. -/
theorem c4_bulk_token_fidelity_witness :
    fedTokens [(36 :: natDigits ([97] : List Nat).length) ++ crlf ++ [97] ++ crlf]
      = some [Tok.bufT [97]]
    ∧ getResponse [Tok.bufT [97]] = .val (.str (utf8Lossy [97])) []
    ∧ ((∀ b ∈ ([97] : List Nat), b < 128) →
        getResponse [Tok.bufT [97]] = .val (.str [97]) []) :=
  c4_bulk_token_fidelity [97] (by decide)

/-! ### Encoder well-formedness and the array-header deficit -/

/-- Is the command item the `other` kind (skipped by the encoder)? -/
def RedisType.isOther : RedisType → Bool
  | .other => true
  | _ => false

mutual

/-- Items whose encoded frame the decoder consumes as exactly one reply:
numbers, non-empty strings and Buffers (an empty bulk trips the C5 bug),
and arrays of such items. -/
def wellFormed : RedisType → Bool
  | .str s => !s.isEmpty
  | .buf b => !b.isEmpty
  | .num _ => true
  | .arr es => wellFormedList es
  | .other => false

/-- All items of a list are well-formed. -/
def wellFormedList : List RedisType → Bool
  | [] => true
  | t :: ts => wellFormed t && wellFormedList ts

end

/-- An item the encoder handles benignly at top level: well-formed, or
`other` (which writes nothing). -/
def encOk (t : RedisType) : Bool := wellFormed t || t.isOther

/-- All items of a list are `encOk`. -/
def encOkList : List RedisType → Bool
  | [] => true
  | t :: ts => encOk t && encOkList ts

/-- Number of items that produce bytes (everything but `other`). -/
def countNonOther : List RedisType → Nat
  | [] => 0
  | t :: ts => (if t.isOther then 0 else 1) + countNonOther ts

mutual

/-- The tokens the parser extracts from one encoded item (single chunk). -/
def tokensOf : RedisType → List Tok
  | .str s => [Tok.bufT (utf8Encode s)]
  | .buf b => [Tok.bufT b]
  | .num n => [Tok.strT (58 :: intDigits n)]
  | .arr es => Tok.strT (42 :: natDigits es.length) :: tokensOfList es
  | .other => []

/-- Tokens of a list of encoded items. -/
def tokensOfList : List RedisType → List Tok
  | [] => []
  | t :: ts => tokensOf t ++ tokensOfList ts

end

mutual

/-- The reply value `getResponse` assembles from one encoded item. -/
def decodedValue : RedisType → RValue
  | .str s => .str (utf8Lossy (utf8Encode s))
  | .buf b => .str (utf8Lossy b)
  | .num n => .num (some n)
  | .arr es => .arr (decodedValueList es)
  | .other => .nil

/-- Reply values of a list of encoded items. -/
def decodedValueList : List RedisType → List RValue
  | [] => []
  | t :: ts => decodedValue t :: decodedValueList ts

end

theorem decodedValue_not_error (t : RedisType) : (decodedValue t).isError = false := by
  cases t <;> rfl

theorem intDigits_not_cr (n : Int) : 13 ∉ intDigits n := by
  unfold intDigits
  intro h
  by_cases hn : n < 0
  · rw [if_pos hn] at h
    rcases List.mem_cons.mp h with h | h
    · omega
    · exact natDigits_not_cr _ h
  · rw [if_neg hn] at h
    exact natDigits_not_cr _ h

theorem intDigits_ascii (n : Int) : ∀ c ∈ intDigits n, c < 128 := by
  unfold intDigits
  intro c h
  by_cases hn : n < 0
  · rw [if_pos hn] at h
    rcases List.mem_cons.mp h with h | h
    · omega
    · exact natDigits_ascii _ _ h
  · rw [if_neg hn] at h
    exact natDigits_ascii _ _ h

theorem countNonOther_le_length (ts : List RedisType) :
    countNonOther ts ≤ ts.length := by
  induction ts with
  | nil => simp [countNonOther]
  | cons t ts ih =>
    unfold countNonOther
    by_cases h : t.isOther <;> simp [h, List.length_cons] <;> omega

theorem countNonOther_append (xs ys : List RedisType) :
    countNonOther (xs ++ ys) = countNonOther xs + countNonOther ys := by
  induction xs with
  | nil => simp [countNonOther]
  | cons x xs ih =>
    simp only [List.cons_append, countNonOther, List.append_eq, ih]
    omega

theorem encOkList_append (xs ys : List RedisType) :
    encOkList (xs ++ ys) = (encOkList xs && encOkList ys) := by
  induction xs with
  | nil => simp [encOkList]
  | cons x xs ih =>
    simp only [List.cons_append, encOkList, List.append_eq, ih, Bool.and_assoc]

theorem encOk_of_wellFormed (t : RedisType) (h : wellFormed t = true) :
    encOk t = true := by
  unfold encOk
  rw [h]
  rfl

theorem encOkList_of_wellFormedList (ts : List RedisType)
    (h : wellFormedList ts = true) : encOkList ts = true := by
  induction ts with
  | nil => rfl
  | cons t ts ih =>
    unfold wellFormedList at h
    rw [Bool.and_eq_true] at h
    obtain ⟨h1, h2⟩ := h
    unfold encOkList
    rw [encOk_of_wellFormed t h1, ih h2]
    rfl

mutual

theorem tokLoop_write (t : RedisType) :
    encOk t = true → ∀ (rest : List Nat) (rem : Option Int),
      tokLoop (write_to_socket t ++ rest) rem
        = match tokLoop rest rem with
          | none => none
          | some (toks, mb2, rem2) => some (tokensOf t ++ toks, mb2, rem2) := by
  intro hok rest rem
  match t with
  | .str s =>
    have hs : s ≠ [] := by
      unfold encOk wellFormed RedisType.isOther at hok
      simp only [Bool.or_false, Bool.not_eq_true', List.isEmpty_eq_false] at hok
      exact hok
    have hp : utf8Encode s ≠ [] := utf8Encode_ne_nil s hs
    have hsh : write_to_socket (.str s) ++ rest
        = (36 :: natDigits (utf8Encode s).length) ++ crlf ++ utf8Encode s ++ crlf ++ rest := by
      unfold write_to_socket
      simp [List.append_assoc]
    rw [hsh, tokLoop_bulk (utf8Encode s) rest rem hp]
    rfl
  | .buf b =>
    have hb : b ≠ [] := by
      unfold encOk wellFormed RedisType.isOther at hok
      simp only [Bool.or_false, Bool.not_eq_true', List.isEmpty_eq_false] at hok
      exact hok
    have hsh : write_to_socket (.buf b) ++ rest
        = (36 :: natDigits b.length) ++ crlf ++ b ++ crlf ++ rest := by
      unfold write_to_socket
      simp [List.append_assoc]
    rw [hsh, tokLoop_bulk b rest rem hb]
    rfl
  | .num n =>
    have hsh : write_to_socket (.num n) ++ rest
        = (58 :: intDigits n) ++ crlf ++ rest := by
      unfold write_to_socket
      simp [List.append_assoc]
    have h13 : 13 ∉ (58 :: intDigits n) := by
      intro h
      rcases List.mem_cons.mp h with h | h
      · omega
      · exact intDigits_not_cr n h
    have h36 : (58 :: intDigits n).head? ≠ some 36 := by simp
    have hlossy : utf8Lossy (58 :: intDigits n) = 58 :: intDigits n := by
      apply utf8Lossy_ascii
      intro b hb
      rcases List.mem_cons.mp hb with h | h
      · omega
      · exact intDigits_ascii n b h
    rw [hsh, tokLoop_line _ _ _ h13 h36, hlossy]
    rfl
  | .arr es =>
    have hwl : wellFormedList es = true := by
      unfold encOk wellFormed RedisType.isOther at hok
      simp only [Bool.or_false] at hok
      exact hok
    have hsh : write_to_socket (.arr es) ++ rest
        = (42 :: natDigits es.length) ++ crlf ++ (writeList es ++ rest) := by
      unfold write_to_socket
      simp [List.append_assoc]
    have h13 : 13 ∉ (42 :: natDigits es.length) := by
      intro h
      rcases List.mem_cons.mp h with h | h
      · omega
      · exact natDigits_not_cr _ h
    have h36 : (42 :: natDigits es.length).head? ≠ some 36 := by simp
    have hlossy : utf8Lossy (42 :: natDigits es.length) = 42 :: natDigits es.length := by
      apply utf8Lossy_ascii
      intro b hb
      rcases List.mem_cons.mp hb with h | h
      · omega
      · exact natDigits_ascii _ _ h
    rw [hsh, tokLoop_line _ _ _ h13 h36, hlossy,
      tokLoop_writeList es (encOkList_of_wellFormedList es hwl) rest rem]
    rcases tokLoop rest rem with _ | ⟨toks, mb2, rem2⟩
    · rfl
    · rfl
  | .other =>
    show tokLoop ([] ++ rest) rem = _
    rw [List.nil_append]
    rcases tokLoop rest rem with _ | ⟨toks, mb2, rem2⟩
    · rfl
    · rfl

theorem tokLoop_writeList (ts : List RedisType) :
    encOkList ts = true → ∀ (rest : List Nat) (rem : Option Int),
      tokLoop (writeList ts ++ rest) rem
        = match tokLoop rest rem with
          | none => none
          | some (toks, mb2, rem2) => some (tokensOfList ts ++ toks, mb2, rem2) := by
  intro hok rest rem
  match ts with
  | [] =>
    show tokLoop ([] ++ rest) rem = _
    rw [List.nil_append]
    rcases tokLoop rest rem with _ | ⟨toks, mb2, rem2⟩
    · rfl
    · rfl
  | t :: ts2 =>
    have h2 : encOk t = true ∧ encOkList ts2 = true := by
      rw [← Bool.and_eq_true]
      exact hok
    have hsh : writeList (t :: ts2) ++ rest
        = write_to_socket t ++ (writeList ts2 ++ rest) := by
      rw [show writeList (t :: ts2) = write_to_socket t ++ writeList ts2 from rfl,
        List.append_assoc]
    rw [hsh, tokLoop_write t h2.1 (writeList ts2 ++ rest) rem,
      tokLoop_writeList ts2 h2.2 rest rem]
    rcases tokLoop rest rem with _ | ⟨toks, mb2, rem2⟩
    · rfl
    · show some (tokensOf t ++ (tokensOfList ts2 ++ toks), mb2, rem2)
        = some (tokensOfList (t :: ts2) ++ toks, mb2, rem2)
      rw [show tokensOfList (t :: ts2) = tokensOf t ++ tokensOfList ts2 from rfl,
        List.append_assoc]

end

mutual

theorem getResponse_tokensOf (t : RedisType) :
    wellFormed t = true → ∀ r : List Tok,
      getResponse (tokensOf t ++ r) = .val (decodedValue t) r := by
  intro hwf r
  match t with
  | .str s =>
    show getResponse (Tok.bufT (utf8Encode s) :: r) = _
    rw [getResponse_bufT]
    rfl
  | .buf b =>
    show getResponse (Tok.bufT b :: r) = _
    rw [getResponse_bufT]
    rfl
  | .num n =>
    show getResponse (Tok.strT (58 :: intDigits n) :: r) = _
    rw [getResponse_strT]
    have h42 : ¬ ((58 :: intDigits n).head? = some 42) := by simp
    have h58 : (58 :: intDigits n).head? = some 58 := rfl
    rw [if_neg h42, if_pos h58]
    show GR.val (.num (jsParseInt (intDigits n))) r = _
    rw [jsParseInt_intDigits]
    rfl
  | .arr es =>
    have hwl : wellFormedList es = true := hwf
    show getResponse (Tok.strT (42 :: natDigits es.length)
        :: (tokensOfList es ++ r)) = _
    rw [getResponse_strT]
    have h42 : (42 :: natDigits es.length).head? = some 42 := rfl
    rw [if_pos h42]
    show (if jsParseInt (natDigits es.length) = some (-1) then _
          else arrLoop (loopCount (jsParseInt (natDigits es.length))) []
            (tokensOfList es ++ r)) = _
    rw [jsParseInt_natDigits]
    have hne : ¬ (some (es.length : Int) = some (-1)) := by
      simp only [Option.some.injEq]
      omega
    rw [if_neg hne]
    have hlc : loopCount (some (es.length : Int)) = es.length := by
      simp [loopCount]
    rw [hlc, arrLoop_tokensOfList es hwl [] r]
    rfl
  | .other =>
    exact absurd hwf (by simp [wellFormed])

theorem arrLoop_tokensOfList (ts : List RedisType) :
    wellFormedList ts = true → ∀ (acc : List RValue) (r : List Tok),
      arrLoop ts.length acc (tokensOfList ts ++ r)
        = .val (.arr (acc ++ decodedValueList ts)) r := by
  intro hwl acc r
  match ts with
  | [] =>
    show arrLoop 0 acc r = _
    rw [arrLoop_zero]
    simp [decodedValueList]
  | t :: ts2 =>
    have h2 : wellFormed t = true ∧ wellFormedList ts2 = true := by
      rw [← Bool.and_eq_true]
      exact hwl
    show arrLoop (ts2.length + 1) acc ((tokensOf t ++ tokensOfList ts2) ++ r) = _
    rw [List.append_assoc, arrLoop_succ,
      getResponse_tokensOf t h2.1 (tokensOfList ts2 ++ r)]
    have hne : ¬ ((decodedValue t).isError = true) := by
      rw [decodedValue_not_error]
      simp
    show (if (decodedValue t).isError = true
          then GR.val (decodedValue t) (tokensOfList ts2 ++ r)
          else arrLoop ts2.length (acc ++ [decodedValue t])
            (tokensOfList ts2 ++ r)) = _
    rw [if_neg hne, arrLoop_tokensOfList ts2 h2.2 (acc ++ [decodedValue t]) r]
    show GR.val (.arr ((acc ++ [decodedValue t]) ++ decodedValueList ts2)) r
        = GR.val (.arr (acc ++ (decodedValue t :: decodedValueList ts2))) r
    rw [List.append_assoc]
    rfl

end

theorem arrLoop_short (items : List RedisType) :
    ∀ (k : Nat) (acc : List RValue),
      encOkList items = true →
      countNonOther items < k →
      arrLoop k acc (tokensOfList items) = .suspend := by
  induction items with
  | nil =>
    intro k acc _ hk
    obtain ⟨k2, rfl⟩ : ∃ k2, k = k2 + 1 := ⟨k - 1, by omega⟩
    show arrLoop (k2 + 1) acc [] = _
    rw [arrLoop_succ, getResponse_nil]
  | cons t ts ih =>
    intro k acc h hk
    have h2 : encOk t = true ∧ encOkList ts = true := by
      rw [← Bool.and_eq_true]
      exact h
    by_cases ht : t.isOther = true
    · have hto : tokensOf t = [] := by
        cases t <;> first | rfl | simp [RedisType.isOther] at ht
      show arrLoop k acc (tokensOf t ++ tokensOfList ts) = _
      rw [hto, List.nil_append]
      apply ih k acc h2.2
      unfold countNonOther at hk
      rw [if_pos ht] at hk
      omega
    · have hwf : wellFormed t = true := by
        have := h2.1
        unfold encOk at this
        rcases Bool.or_eq_true_iff.mp this with hw | ho
        · exact hw
        · exact absurd ho ht
      obtain ⟨k2, rfl⟩ : ∃ k2, k = k2 + 1 := ⟨k - 1, by omega⟩
      show arrLoop (k2 + 1) acc (tokensOf t ++ tokensOfList ts) = _
      rw [arrLoop_succ, getResponse_tokensOf t hwf (tokensOfList ts)]
      have hne : ¬ ((decodedValue t).isError = true) := by
        rw [decodedValue_not_error]
        simp
      show (if (decodedValue t).isError = true
            then GR.val (decodedValue t) (tokensOfList ts)
            else arrLoop k2 (acc ++ [decodedValue t]) (tokensOfList ts)) = _
      rw [if_neg hne]
      apply ih k2 (acc ++ [decodedValue t]) h2.2
      unfold countNonOther at hk
      rw [if_neg ht] at hk
      omega

/-- C10: in array-form encoding, `_write_to_socket` always writes the header
`*N CRLF` with `N` the total number of items of the array (first conjunct);
an item that is neither a string, a Buffer, a number nor an array (`other`)
produces no bytes at all (second conjunct); number items are emitted as
integer frames `:n CRLF`, not as bulk strings (third conjunct).  Consequence
(fourth conjunct): for every command array containing such an `other` item
(the remaining items being encodable), the emitted frame carries fewer
elements than the header declares, so a decoder of the frame reads past the
frame and suspends waiting for the missing element. -/
theorem c10_array_header_vs_items :
    (∀ items : List RedisType,
        write_to_socket (.arr items)
          = (42 :: natDigits items.length) ++ crlf ++ writeList items)
    ∧ write_to_socket .other = []
    ∧ (∀ n : Int, write_to_socket (.num n) = (58 :: intDigits n) ++ crlf)
    ∧ (∀ pre post : List RedisType, encOkList (pre ++ post) = true →
        decodeChunk (write_to_socket (.arr (pre ++ .other :: post)))
          = some GR.suspend) := by
  refine ⟨?_, rfl, ?_, ?_⟩
  · intro items
    show 42 :: (natDigits items.length ++ crlf ++ writeList items) = _
    simp [List.append_assoc]
  · intro n
    show 58 :: (intDigits n ++ crlf) = _
    simp
  · intro pre post hok
    have hok2 : encOkList pre = true ∧ encOkList post = true := by
      rw [encOkList_append, Bool.and_eq_true] at hok
      exact hok
    have hokAll : encOkList (pre ++ RedisType.other :: post) = true := by
      rw [encOkList_append, hok2.1]
      show (true && (encOk RedisType.other && encOkList post)) = true
      rw [hok2.2]
      rfl
    have hcnt : countNonOther (pre ++ RedisType.other :: post)
        = countNonOther pre + countNonOther post := by
      rw [countNonOther_append]
      have h0 : countNonOther (RedisType.other :: post) = countNonOther post := by
        simp [countNonOther, RedisType.isOther]
      rw [h0]
    have hlen : (pre ++ RedisType.other :: post).length
        = pre.length + post.length + 1 := by
      rw [List.length_append, List.length_cons]
      omega
    have hN : countNonOther (pre ++ RedisType.other :: post)
        < (pre ++ RedisType.other :: post).length := by
      have h1 := countNonOther_le_length pre
      have h2 := countNonOther_le_length post
      omega
    have h13 : 13 ∉ (42 :: natDigits (pre ++ RedisType.other :: post).length) := by
      intro h
      rcases List.mem_cons.mp h with h | h
      · omega
      · exact natDigits_not_cr _ h
    have h36 : (42 :: natDigits (pre ++ RedisType.other :: post).length).head?
        ≠ some 36 := by simp
    have hlossy : utf8Lossy (42 :: natDigits (pre ++ RedisType.other :: post).length)
        = 42 :: natDigits (pre ++ RedisType.other :: post).length := by
      apply utf8Lossy_ascii
      intro b hb
      rcases List.mem_cons.mp hb with h | h
      · omega
      · exact natDigits_ascii _ _ h
    have hline : tokLoop (write_to_socket (RedisType.arr (pre ++ RedisType.other :: post)))
          (some (-1))
        = some (Tok.strT (42 :: natDigits (pre ++ RedisType.other :: post).length)
            :: tokensOfList (pre ++ RedisType.other :: post),
          MultiBuffer.mk [], some (-1)) := by
      have hsh : write_to_socket (RedisType.arr (pre ++ RedisType.other :: post))
          = (42 :: natDigits (pre ++ RedisType.other :: post).length) ++ crlf
            ++ writeList (pre ++ RedisType.other :: post) := by
        show 42 :: (natDigits (pre ++ RedisType.other :: post).length ++ crlf
          ++ writeList (pre ++ RedisType.other :: post)) = _
        simp [List.append_assoc]
      rw [hsh, tokLoop_line _ _ _ h13 h36]
      have hwl := tokLoop_writeList (pre ++ RedisType.other :: post) hokAll [] (some (-1))
      rw [List.append_nil, tokLoop_nil] at hwl
      rw [hwl, hlossy]
      show some (Tok.strT (42 :: natDigits (pre ++ RedisType.other :: post).length)
          :: (tokensOfList (pre ++ RedisType.other :: post) ++ []),
        MultiBuffer.mk [], some (-1)) = _
      rw [List.append_nil]
    show decodeChunk (write_to_socket (RedisType.arr (pre ++ RedisType.other :: post)))
        = some GR.suspend
    unfold decodeChunk
    rw [fedTokens_single, hline]
    show some (getResponse
        (Tok.strT (42 :: natDigits (pre ++ RedisType.other :: post).length)
          :: tokensOfList (pre ++ RedisType.other :: post))) = some GR.suspend
    rw [getResponse_strT]
    have h42 : (42 :: natDigits (pre ++ RedisType.other :: post).length).head?
        = some 42 := rfl
    rw [if_pos h42]
    show some
        (if jsParseInt (natDigits (pre ++ RedisType.other :: post).length) = some (-1)
          then GR.val RValue.nil (tokensOfList (pre ++ RedisType.other :: post))
          else arrLoop
            (loopCount (jsParseInt (natDigits (pre ++ RedisType.other :: post).length)))
            [] (tokensOfList (pre ++ RedisType.other :: post))) = some GR.suspend
    rw [jsParseInt_natDigits]
    have hne : ¬ (some ((pre ++ RedisType.other :: post).length : Int) = some (-1)) := by
      simp only [Option.some.injEq]
      omega
    rw [if_neg hne]
    have hlc : loopCount (some ((pre ++ RedisType.other :: post).length : Int))
        = (pre ++ RedisType.other :: post).length := by
      simp only [loopCount]
      omega
    rw [hlc, arrLoop_short (pre ++ RedisType.other :: post)
      (pre ++ RedisType.other :: post).length [] hokAll hN]

/-- Witness for C10: a two-item command `[1, <other>]` is emitted as
`*2 CRLF :1 CRLF` — the header declares two elements, only one frame
follows — and decoding the emitted frame suspends. -/
theorem c10_array_header_vs_items_witness :
    encOkList ([RedisType.num 1] ++ []) = true
    ∧ decodeChunk (write_to_socket (.arr ([RedisType.num 1] ++ .other :: [])))
        = some GR.suspend :=
  ⟨by decide, c10_array_header_vs_items.2.2.2 [RedisType.num 1] [] (by decide)⟩
